import Mathlib

/-!
Verification of the amalgam schema-to-configuration-language pipeline.

This file gives a shallow embedding, in Lean 4, of the core data model and
operations of the amalgam repository (Rust), and proves or refutes the frozen
specification claims about them.  Every definition is translated from the Rust
source; the few structures whose declaring file is not part of the provided
sources (the IR container structs, the package-mode import rewriter and the
parser error enum) are modelled from the specification and marked as such in
their doc comments.

Conventions of the embedding:
  - Rust `String` becomes Lean `String`; machine integers do not occur in the
    modelled code paths.
  - `HashMap` / `HashSet` become association lists / lists whose list order
    stands for the (unspecified) iteration order; lookup is first-match and
    insertion deduplicates, so the observable map/set semantics agree.
  - `&mut self` state (resolver cache, codegen import set) becomes explicit
    state passing.
  - fallible Rust functions returning `Result` become `Except`.
-/

namespace Amalgam

/-- List-of-characters test: does `hay` start with `nee`?  (Helper used to
model Rust substring search.) -/
def startsList : List Char → List Char → Bool
  | _, [] => true
  | [], _ :: _ => false
  | h :: t, n :: m => h == n && startsList t m

/-- Does the character list `hay` contain `nee` as a contiguous run?
Models Rust `str::contains(&str)`. -/
def hasSub : List Char → List Char → Bool
  | [], nee => nee.isEmpty
  | h :: t, nee => startsList (h :: t) nee || hasSub t nee

/-- Models Rust `s.contains(pat)` for string patterns. -/
def containsSub (s pat : String) : Bool :=
  hasSub s.toList pat.toList

/-- Models Rust `Vec::<String>::join("/")`. -/
def joinSlash : List String → String
  | [] => ""
  | [x] => x
  | x :: y :: xs => x ++ "/" ++ joinSlash (y :: xs)

/-- Models Rust `Vec::<String>::join(".")`. -/
def joinDot : List String → String
  | [] => ""
  | [x] => x
  | x :: y :: xs => x ++ "." ++ joinDot (y :: xs)

/-- Models Rust `s.repeat(n)` (here always used on `"../"`). -/
def repeatStr : Nat → String → String
  | 0, _ => ""
  | n + 1, s => s ++ repeatStr n s

/-- Splitting a character list at every occurrence of the separator `c`;
structural-recursion counterpart of Rust `str::split(char)`. -/
def splitCharList (c : Char) : List Char → List (List Char)
  | [] => [[]]
  | h :: t =>
    if h = c then [] :: splitCharList c t
    else
      match splitCharList c t with
      | [] => [[h]]
      | x :: xs => (h :: x) :: xs

/-- Models Rust `s.split(c).collect::<Vec<_>>()`. -/
def splitChar (s : String) (c : Char) : List String :=
  (splitCharList c s.toList).map String.mk

/-- Models Rust `s.contains(c)` for a character pattern. -/
def charContains (s : String) (c : Char) : Bool :=
  s.toList.contains c

/-- Models Rust `s.starts_with(pat)`. -/
def startsWithStr (s pat : String) : Bool :=
  startsList s.toList pat.toList

/-- Models Rust `s.ends_with(pat)`. -/
def endsWithStr (s pat : String) : Bool :=
  startsList s.toList.reverse pat.toList.reverse

/-- Models Rust `group.replace('.', "_")` (single-character pattern, so a
character-wise map). -/
def replaceDots (s : String) : String :=
  String.mk (s.toList.map fun c => if c = '.' then '_' else c)

/-- Models Rust `s.to_lowercase()` on ASCII type names. -/
def lowerStr (s : String) : String :=
  String.mk (s.toList.map Char.toLower)

/-- Models Rust `fqn.rfind('.')` slicing: the part of `fqn` strictly before
the last dot, or all of `fqn` when it has no dot
(`DependencyGraph::extract_module` in `walkers/mod.rs`). -/
def extractModule (fqn : String) : String :=
  let parts := splitChar fqn '.'
  if parts.length ≤ 1 then fqn else joinDot parts.dropLast

/-! ## TypeReference and import paths (`amalgam-parser/src/imports.rs`) -/

/-- A type reference that needs to be imported (`imports.rs`). -/
structure TypeReference where
  group : String
  version : String
  kind : String
deriving DecidableEq, Repr

/-- Helper closure `group_to_package` inside `TypeReference::import_path`:
derives the on-disk package directory from a group name. -/
def groupToPackage (group : String) : String :=
  let sanitized := replaceDots group
  if charContains group '.' then
    let parts := splitChar group '.'
    if parts.length ≥ 2 ∧
        (parts.getLast? = some "io" ∨ parts.getLast? = some "com" ∨
          parts.getLast? = some "org") then
      if parts.length = 2 then sanitized
      else if parts.length ≥ 3 then parts.getD (parts.length - 2) ""
      else sanitized
    else sanitized
  else sanitized

/-- Helper closure `needs_group_subdir` inside `TypeReference::import_path`. -/
def needsGroupSubdir (group pkg : String) : Bool :=
  (replaceDots group ≠ pkg) && charContains group '.'

/-- The `from_components` vector built in `TypeReference::import_path`:
package directory, optional group subdirectory, version directory. -/
def fromComponents (fromGroup fromVersion : String) : List String :=
  let fromPackage := groupToPackage fromGroup
  [fromPackage] ++
    (if needsGroupSubdir fromGroup fromPackage then [fromGroup] else []) ++
    [fromVersion]

/-- The `to_components` vector built in `TypeReference::import_path`:
target package directory, optional group subdirectory, version, and the
lower-cased kind name with the `.ncl` extension. -/
def toComponents (t : TypeReference) : List String :=
  let targetPackage := groupToPackage t.group
  [targetPackage] ++
    (if needsGroupSubdir t.group targetPackage then [t.group] else []) ++
    [t.version, lowerStr t.kind ++ ".ncl"]

/-- Models `TypeReference::import_path`: `"../"` repeated once per component
of the consumer's directory path, then the target components joined by
`"/"`. -/
def importPath (t : TypeReference) (fromGroup fromVersion : String) : String :=
  let upDirs := repeatStr (fromComponents fromGroup fromVersion).length "../"
  upDirs ++ joinSlash (toComponents t)

/-- Stated from the spec's words, for comparison with `importPath`: the number
of directory levels from the consuming module's file up to the shared package
root — one for its package directory, one for its version directory, and one
more when the group gets its own subdirectory. -/
def specConsumerDepth (fromGroup : String) : Nat :=
  2 + (if needsGroupSubdir fromGroup (groupToPackage fromGroup) then 1 else 0)

/-- Stated from the spec's words: descend into the target's package directory,
optional group subdirectory and version directory, and end with the
lower-cased kind name plus the `.ncl` extension. -/
def specTargetPath (t : TypeReference) : String :=
  groupToPackage t.group ++ "/" ++
    (if needsGroupSubdir t.group (groupToPackage t.group) then
      t.group ++ "/" else "") ++
    t.version ++ "/" ++ (lowerStr t.kind ++ ".ncl")

/-- Stated from the spec's words: one `"../"` segment per directory level from
the consumer's file to the shared package root, followed by the target's
relative path. -/
def specImportPath (t : TypeReference) (fromGroup : String) : String :=
  repeatStr (specConsumerDepth fromGroup) "../" ++ specTargetPath t

/-! ## Dependency graph (`amalgam-parser/src/walkers/mod.rs`)

The Rust `DependencyGraph` stores two `HashMap<String, HashSet<String>>`.
Lookup of an absent key combined with `or_default` behaves like a total map
into the empty set, so each map is embedded as a total function from names to
duplicate-free lists; `HashSet::insert` becomes `List.insert`. -/

/-- Directed graph over fully-qualified type names (`walkers/mod.rs`). -/
structure DependencyGraph where
  dependencies : String → List String
  dependents : String → List String

namespace DependencyGraph

/-- Models `DependencyGraph::new()`: both maps empty. -/
def new : DependencyGraph :=
  { dependencies := fun _ => [], dependents := fun _ => [] }

/-- Models `DependencyGraph::add_dependency`: records the edge in the forward
map and its reverse in the backward map. -/
def addDependency (g : DependencyGraph) (frm tgt : String) : DependencyGraph :=
  { dependencies := fun k =>
      if k = frm then (g.dependencies frm).insert tgt else g.dependencies k,
    dependents := fun k =>
      if k = tgt then (g.dependents tgt).insert frm else g.dependents k }

/-- Models `DependencyGraph::get_cross_module_deps`: the dependencies of `fqn`
whose module (the part before the last dot) differs from `fqn`'s module. -/
def getCrossModuleDeps (g : DependencyGraph) (fqn : String) : List String :=
  let module := extractModule fqn
  (g.dependencies fqn).filter fun dep => extractModule dep ≠ module

/-- A graph reached from `new` by a finite sequence of `add_dependency`
calls; used to state invariants over every constructible graph. -/
def ofOps (ops : List (String × String)) : DependencyGraph :=
  ops.foldl (fun g p => g.addDependency p.1 p.2) new

end DependencyGraph

/-! ## Core type model (`amalgam-core/src/types.rs`) -/

/-- Model of `serde_json::Value`.  Objects keep their entry order as the
iteration order of the underlying map. -/
inductive Json where
  | null : Json
  | bool (b : Bool) : Json
  | num (n : Int) : Json
  | str (s : String) : Json
  | arr (items : List Json) : Json
  | obj (entries : List (String × Json)) : Json

namespace Json

/-- Models `serde_json::Value::get(key)` on objects (first matching key). -/
def getKey : Json → String → Option Json
  | obj entries, k => entries.lookup k
  | _, _ => none

/-- Models `Value::as_str`. -/
def asStr : Json → Option String
  | str s => some s
  | _ => none

/-- Models `Value::as_bool`. -/
def asBool : Json → Option Bool
  | bool b => some b
  | _ => none

/-- Models `Value::as_array`. -/
def asArray : Json → Option (List Json)
  | arr items => some items
  | _ => none

/-- Models `Value::as_object` (the entry list of the underlying map). -/
def asObject : Json → Option (List (String × Json))
  | obj entries => some entries
  | _ => none

end Json

/-- Hint for how to handle union types in target languages (`types.rs`). -/
inductive UnionCoercion where
  | preferString
  | preferNumber
  | noPreference
  | custom (handler : String)
deriving DecidableEq, Repr

mutual

/-- Core algebraic type representation (`types.rs`).  `Record.fields` and
`TaggedUnion.variants` are `BTreeMap`s in Rust; they are embedded as
association lists in iteration order (sorted by key when produced by the
modelled code, which only ever iterates them). -/
inductive Ty where
  | string
  | number
  | integer
  | bool
  | null
  | any
  | array (elem : Ty)
  | map (key : Ty) (value : Ty)
  | optional (inner : Ty)
  | record (fields : List (String × TyField)) (isOpen : Bool)
  | union (types : List Ty) (coercionHint : Option UnionCoercion)
  | taggedUnion (tagField : String) (variants : List (String × Ty))
  | reference (name : String) (module : Option String)
  | contract (base : Ty) (predicate : String)

/-- Rust struct `Field` in `types.rs`. -/
inductive TyField where
  | mk (ty : Ty) (required : Bool) (description : Option String)
      (default : Option Json)

end

/-- Projection to the `ty` member of `Field`. -/
def TyField.ty : TyField → Ty
  | .mk t _ _ _ => t

/-- Projection to the `required` member of `Field`. -/
def TyField.required : TyField → Bool
  | .mk _ r _ _ => r

/-- Projection to the `description` member of `Field`. -/
def TyField.description : TyField → Option String
  | .mk _ _ d _ => d

/-- Projection to the `default` member of `Field`. -/
def TyField.defaultVal : TyField → Option Json
  | .mk _ _ _ d => d

mutual

/-- Structural equality on `Json`, modelling the derived `PartialEq` of
`serde_json::Value`. -/
def Json.beq : Json → Json → Bool
  | .null, .null => true
  | .bool a, .bool b => a == b
  | .num a, .num b => a == b
  | .str a, .str b => a == b
  | .arr xs, .arr ys => Json.beqList xs ys
  | .obj xs, .obj ys => Json.beqEntries xs ys
  | _, _ => false

/-- Element-wise `Json` equality on arrays. -/
def Json.beqList : List Json → List Json → Bool
  | [], [] => true
  | x :: xs, y :: ys => Json.beq x y && Json.beqList xs ys
  | _, _ => false

/-- Entry-wise `Json` equality on objects. -/
def Json.beqEntries : List (String × Json) → List (String × Json) → Bool
  | [], [] => true
  | (k1, v1) :: xs, (k2, v2) :: ys =>
    k1 == k2 && Json.beq v1 v2 && Json.beqEntries xs ys
  | _, _ => false

end

mutual

/-- Structural equality on `Ty`, modelling the derived `PartialEq` of the
Rust `Type` enum in `types.rs`. -/
def Ty.beq : Ty → Ty → Bool
  | .string, .string => true
  | .number, .number => true
  | .integer, .integer => true
  | .bool, .bool => true
  | .null, .null => true
  | .any, .any => true
  | .array a, .array b => Ty.beq a b
  | .map k1 v1, .map k2 v2 => Ty.beq k1 k2 && Ty.beq v1 v2
  | .optional a, .optional b => Ty.beq a b
  | .record f1 o1, .record f2 o2 => Ty.beqFields f1 f2 && o1 == o2
  | .union t1 h1, .union t2 h2 =>
    Ty.beqList t1 t2 &&
      (match h1, h2 with
        | none, none => true
        | some a, some b => a == b
        | _, _ => false)
  | .taggedUnion tag1 v1, .taggedUnion tag2 v2 =>
    tag1 == tag2 && Ty.beqVariants v1 v2
  | .reference n1 m1, .reference n2 m2 => n1 == n2 && m1 == m2
  | .contract b1 p1, .contract b2 p2 => Ty.beq b1 b2 && p1 == p2
  | _, _ => false

/-- Element-wise `Ty` equality. -/
def Ty.beqList : List Ty → List Ty → Bool
  | [], [] => true
  | x :: xs, y :: ys => Ty.beq x y && Ty.beqList xs ys
  | _, _ => false

/-- Entry-wise equality of record field maps. -/
def Ty.beqFields : List (String × TyField) → List (String × TyField) → Bool
  | [], [] => true
  | (k1, f1) :: xs, (k2, f2) :: ys =>
    k1 == k2 && TyField.beq f1 f2 && Ty.beqFields xs ys
  | _, _ => false

/-- Entry-wise equality of tagged-union variant maps. -/
def Ty.beqVariants : List (String × Ty) → List (String × Ty) → Bool
  | [], [] => true
  | (k1, t1) :: xs, (k2, t2) :: ys =>
    k1 == k2 && Ty.beq t1 t2 && Ty.beqVariants xs ys
  | _, _ => false

/-- Structural equality on `Field` values. -/
def TyField.beq : TyField → TyField → Bool
  | .mk t1 r1 d1 j1, .mk t2 r2 d2 j2 =>
    Ty.beq t1 t2 && r1 == r2 && d1 == d2 &&
      (match j1, j2 with
        | none, none => true
        | some a, some b => Json.beq a b
        | _, _ => false)

end

/-- The `TypeSystem` struct of `types.rs`: a side table from type names to
types (a `BTreeMap` in Rust, embedded as an association list). -/
structure TypeSystem where
  types : List (String × Ty)

namespace TypeSystem

/-- Models `TypeSystem::resolve`: `BTreeMap::get` by name. -/
def resolveName (ts : TypeSystem) (name : String) : Option Ty :=
  ts.types.lookup name

/-- Models `TypeSystem::is_compatible` from `types.rs`.  The Rust function
recurses through `Reference` resolution against the side table, which need
not decrease any structural measure (a cyclic side table makes the Rust
function diverge), so the embedding takes explicit fuel; every claim proved
about it holds for every sufficient fuel value.  Match arms are in the exact
order of the Rust `match`. -/
def isCompatible (ts : TypeSystem) : Nat → Ty → Ty → Bool
  | 0, _, _ => false
  | fuel + 1, source, target =>
    match source, target with
    | .any, _ => true
    | _, .any => true
    | .null, .optional _ => true
    | s, .optional t => isCompatible ts fuel s t
    | .integer, .number => true
    | .reference n _, t =>
      match ts.resolveName n with
      | some resolved => isCompatible ts fuel resolved t
      | none => false
    | s, .reference n _ =>
      match ts.resolveName n with
      | some resolved => isCompatible ts fuel s resolved
      | none => false
    | .array s, .array t => isCompatible ts fuel s t
    | .union types _, t => types.all fun v => isCompatible ts fuel v t
    | s, .union types _ => types.any fun v => isCompatible ts fuel s v
    | s, t => Ty.beq s t

end TypeSystem

/-! ## CRD walker (`amalgam-parser/src/walkers/crd.rs`) -/

/-- The `WalkerError` enum of `walkers/mod.rs`; the `io::Error` payload is
modelled by its message string. -/
inductive WalkerError where
  | parseError (msg : String)
  | invalidReference (msg : String)
  | circularDependency (msg : String)
  | ioError (msg : String)
deriving DecidableEq, Repr

/-- Size bound for array elements, used for termination of the schema
conversion. -/
theorem Json.sizeOf_lt_of_mem_arr {x : Json} {l : List Json} (h : x ∈ l) :
    sizeOf x < sizeOf (Json.arr l) := by
  have := List.sizeOf_lt_of_mem h
  simp only [Json.arr.sizeOf_spec]
  omega

/-- Size bound for object entry values, used for termination of the schema
conversion. -/
theorem Json.sizeOf_lt_of_mem_obj {k : String} {v : Json}
    {l : List (String × Json)} (h : (k, v) ∈ l) :
    sizeOf v < sizeOf (Json.obj l) := by
  have h1 := List.sizeOf_lt_of_mem h
  have h2 : sizeOf v < sizeOf (k, v) := by
    simp only [Prod.mk.sizeOf_spec]
    omega
  simp only [Json.obj.sizeOf_spec]
  omega

/-- A successful key lookup returns a strictly smaller value. -/
theorem Json.sizeOf_lt_of_getKey {s : Json} {k : String} {v : Json}
    (h : s.getKey k = some v) : sizeOf v < sizeOf s := by
  cases s <;> simp [Json.getKey] at h
  next entries =>
    have hmem : (k, v) ∈ entries := by
      clear * - h
      induction entries with
      | nil => simp [List.lookup] at h
      | cons e rest ih =>
        obtain ⟨ek, ev⟩ := e
        simp only [List.lookup] at h
        cases hbeq : (k == ek) with
        | true =>
          rw [hbeq] at h
          simp only [Option.some.injEq] at h
          have hk : k = ek := by simpa [beq_iff_eq] using hbeq
          subst hk
          subst h
          exact List.mem_cons_self _ _
        | false =>
          rw [hbeq] at h
          exact List.mem_cons_of_mem _ (ih h)
    exact Json.sizeOf_lt_of_mem_obj hmem

/-- A value of an object found behind a key lookup is strictly smaller than
the looked-up value. -/
theorem Json.sizeOf_lt_of_getKey_obj {s : Json} {k n : String} {v : Json}
    {props : List (String × Json)}
    (h : (s.getKey k).bind Json.asObject = some props) (hm : (n, v) ∈ props) :
    sizeOf v < sizeOf s := by
  cases hg : s.getKey k with
  | none => simp [hg] at h
  | some j =>
    rw [hg] at h
    cases j <;> simp [Json.asObject] at h
    subst h
    exact lt_trans (Json.sizeOf_lt_of_mem_obj hm) (Json.sizeOf_lt_of_getKey hg)

/-- An element of an array found behind a key lookup is strictly smaller than
the looked-up value. -/
theorem Json.sizeOf_lt_of_getKey_arr {s : Json} {k : String} {v : Json}
    {items : List Json}
    (h : (s.getKey k).bind Json.asArray = some items) (hm : v ∈ items) :
    sizeOf v < sizeOf s := by
  cases hg : s.getKey k with
  | none => simp [hg] at h
  | some j =>
    rw [hg] at h
    cases j <;> simp [Json.asArray] at h
    subst h
    exact lt_trans (Json.sizeOf_lt_of_mem_arr hm) (Json.sizeOf_lt_of_getKey hg)

/-- A successful object lookup behind a key is strictly smaller than the
whole schema node. -/
theorem Json.sizeOf_obj_lt_of_getKey {s : Json} {k : String}
    {props : List (String × Json)}
    (h : (s.getKey k).bind Json.asObject = some props) :
    sizeOf props < sizeOf s := by
  cases hg : s.getKey k with
  | none => simp [hg] at h
  | some j =>
    rw [hg] at h
    cases j <;> simp [Json.asObject] at h
    subst h
    have := Json.sizeOf_lt_of_getKey hg
    simp only [Json.obj.sizeOf_spec] at this
    omega

/-- A successful array lookup behind a key is strictly smaller than the
whole schema node. -/
theorem Json.sizeOf_arr_lt_of_getKey {s : Json} {k : String}
    {items : List Json}
    (h : (s.getKey k).bind Json.asArray = some items) :
    sizeOf items < sizeOf s := by
  cases hg : s.getKey k with
  | none => simp [hg] at h
  | some j =>
    rw [hg] at h
    cases j <;> simp [Json.asArray] at h
    subst h
    have := Json.sizeOf_lt_of_getKey hg
    simp only [Json.arr.sizeOf_spec] at this
    omega

mutual

/-- Models `CRDWalker::json_schema_to_type` (`walkers/crd.rs`): converts a
CRD JSON schema node into a `Ty`, pushing every encountered `$ref` string
onto `refs`.  Branches appear in the exact order of the Rust source: `$ref`
first, then the `type` keyword, with `oneOf`/`anyOf` only examined when
`type` is absent, and any unrecognized `type` value degrading to `Any`. -/
def jsonSchemaToType (baseModule : String) (schema : Json)
    (refs : List String) : Except WalkerError (Ty × List String) :=
  match (schema.getKey "$ref").bind Json.asStr with
  | some refStr =>
    let refs := refs ++ [refStr]
    let typeName := match (splitChar refStr '/').getLast? with
      | some tn => tn
      | none => refStr
    .ok (.reference typeName (some baseModule), refs)
  | none =>
    match (schema.getKey "type").bind Json.asStr with
    | some "string" => .ok (.string, refs)
    | some "number" => .ok (.number, refs)
    | some "integer" => .ok (.integer, refs)
    | some "boolean" => .ok (.bool, refs)
    | some "null" => .ok (.null, refs)
    | some "array" =>
      match hi : schema.getKey "items" with
      | some itemsSchema => do
        let (itemType, refs) ← jsonSchemaToType baseModule itemsSchema refs
        .ok (.array itemType, refs)
      | none => .ok (.array .any, refs)
    | some "object" =>
      let required : List String :=
        match (schema.getKey "required").bind Json.asArray with
        | some arr => arr.filterMap Json.asStr
        | none => []
      let isOpen : Bool :=
        match (schema.getKey "additionalProperties").bind Json.asBool with
        | some b => b
        | none => false
      match hp : (schema.getKey "properties").bind Json.asObject with
      | some props => do
        let (fields, refs) ← jsonSchemaProps baseModule required props refs
        .ok (.record fields isOpen, refs)
      | none => .ok (.record [] isOpen, refs)
    | none =>
      match ho : (schema.getKey "oneOf").bind Json.asArray with
      | some oneOfList => do
        let (types, refs) ← jsonSchemaList baseModule oneOfList refs
        .ok (.union types none, refs)
      | none =>
        match ha : (schema.getKey "anyOf").bind Json.asArray with
        | some anyOfList => do
          let (types, refs) ← jsonSchemaList baseModule anyOfList refs
          .ok (.union types none, refs)
        | none => .ok (.any, refs)
    | some _ => .ok (.any, refs)
termination_by sizeOf schema
decreasing_by
  · exact Json.sizeOf_lt_of_getKey hi
  · exact Json.sizeOf_obj_lt_of_getKey hp
  · exact Json.sizeOf_arr_lt_of_getKey ho
  · exact Json.sizeOf_arr_lt_of_getKey ha

/-- The `properties` loop of the `object` branch of `json_schema_to_type`,
as structural recursion over the property list.  The Rust loop inserts into
a `BTreeMap`; on `serde_json` objects the keys are already unique and
sorted, so insertion order equals map order and the produced association
list matches the Rust map's iteration order. -/
def jsonSchemaProps (baseModule : String) (required : List String)
    (props : List (String × Json)) (refs : List String) :
    Except WalkerError (List (String × TyField) × List String) :=
  match props with
  | [] => .ok ([], refs)
  | (name, propSchema) :: rest => do
    let (fieldType, refs) ← jsonSchemaToType baseModule propSchema refs
    let description := (propSchema.getKey "description").bind Json.asStr
    let (restFields, refs) ← jsonSchemaProps baseModule required rest refs
    .ok ((name, .mk fieldType (required.contains name) description none)
      :: restFields, refs)
termination_by sizeOf props
decreasing_by
  · simp only [Prod.mk.sizeOf_spec, List.cons.sizeOf_spec]
    omega
  · simp only [List.cons.sizeOf_spec]
    omega

/-- The member-schema loop shared by the `oneOf` and `anyOf` branches of
`json_schema_to_type`, as structural recursion over the member list. -/
def jsonSchemaList (baseModule : String) (schemas : List Json)
    (refs : List String) : Except WalkerError (List Ty × List String) :=
  match schemas with
  | [] => .ok ([], refs)
  | s :: rest => do
    let (t, refs) ← jsonSchemaToType baseModule s refs
    let (ts, refs) ← jsonSchemaList baseModule rest refs
    .ok (t :: ts, refs)
termination_by sizeOf schemas
decreasing_by
  · simp only [List.cons.sizeOf_spec]
    omega
  · simp only [List.cons.sizeOf_spec]
    omega

end

mutual

/-- Models `CRDWalker::extract_references` (`walkers/crd.rs`): collects every
`Reference` occurring in a type tree into the set `refs` (a `HashSet` in
Rust, embedded as a duplicate-free list in first-insertion order). -/
def extractReferences : Ty → List String → List String
  | .reference name module, refs =>
    let fqn := match module with
      | some m => m ++ "." ++ name
      | none => name
    if refs.contains fqn then refs else refs ++ [fqn]
  | .array inner, refs => extractReferences inner refs
  | .optional inner, refs => extractReferences inner refs
  | .map _ value, refs => extractReferences value refs
  | .record fields _, refs => extractReferencesFields fields refs
  | .union types _, refs => extractReferencesList types refs
  | .taggedUnion _ variants, refs => extractReferencesVariants variants refs
  | .contract base _, refs => extractReferences base refs
  | _, refs => refs

/-- Reference collection over the member list of a union. -/
def extractReferencesList : List Ty → List String → List String
  | [], refs => refs
  | t :: ts, refs => extractReferencesList ts (extractReferences t refs)

/-- Reference collection over the field map of a record. -/
def extractReferencesFields : List (String × TyField) → List String → List String
  | [], refs => refs
  | (_, .mk ty _ _ _) :: fs, refs =>
    extractReferencesFields fs (extractReferences ty refs)

/-- Reference collection over the variant map of a tagged union. -/
def extractReferencesVariants : List (String × Ty) → List String → List String
  | [], refs => refs
  | (_, t) :: vs, refs => extractReferencesVariants vs (extractReferences t refs)

end

/-! ## IR container model

The declaring file `amalgam-core/src/ir.rs` is not among the provided
sources; these containers are modelled from the spec's data model (§3:
TypeDefinition, Module, Import, TypeRegistry) and from how the provided
walker and code-generator sources construct and consume them. -/

/-- Modelled from the spec: `Import` is `{path, alias?, items}`. -/
structure Import where
  path : String
  aliasName : Option String
  items : List String

/-- Modelled from the spec: `TypeDefinition` is
`{name, ty, documentation?, annotations}`; annotations are a string map. -/
structure TypeDefinition where
  name : String
  ty : Ty
  documentation : Option String
  annotations : List (String × String)

/-- Modelled from the spec: a named constant carried by a module; its fields
(name, value, documentation) are those read by the code generator. -/
structure Constant where
  name : String
  value : Json
  documentation : Option String

/-- Modelled from the spec: module metadata, reconstructed from its uses in
the provided test code; none of the modelled operations ever read it. -/
structure Metadata where
  sourceLanguage : Option String
  sourceFile : Option String
  version : Option String
  generatedAt : Option String
  custom : List (String × String)

/-- The default (all-empty) metadata produced by `Default::default()`. -/
def Metadata.empty : Metadata :=
  { sourceLanguage := none, sourceFile := none, version := none,
    generatedAt := none, custom := [] }

/-- Modelled from the spec: `Module` is
`{name, imports, types, constants}` plus metadata. -/
structure Module where
  name : String
  imports : List Import
  types : List TypeDefinition
  constants : List Constant
  metadata : Metadata

/-- Modelled from the spec: the IR is the list of generated modules, in the
order the walker adds them (`IR::new` starts empty, `add_module` appends). -/
structure IR where
  modules : List Module

/-- Models `IR::new()`. -/
def IR.new : IR := { modules := [] }

/-- Models `IR::add_module`. -/
def IR.addModule (ir : IR) (m : Module) : IR :=
  { modules := ir.modules ++ [m] }

/-- The `TypeRegistry` of `walkers/mod.rs`: both `HashMap`s are embedded as
association lists whose list order stands for iteration order. -/
structure TypeRegistry where
  types : List (String × TypeDefinition)
  modules : List (String × List String)

/-! ## CRD walker dependency and IR generation (`walkers/crd.rs`) -/

/-- Models `CRDWalker::build_dependencies`: records an edge for every
collected reference that either starts with the `io.k8s.` namespace or
resolves inside the registry. -/
def buildDependencies (registry : TypeRegistry) : DependencyGraph :=
  registry.types.foldl
    (fun graph p =>
      let refs := extractReferences p.2.ty []
      refs.foldl
        (fun g refFqn =>
          if startsWithStr refFqn "io.k8s." then g.addDependency p.1 refFqn
          else if (registry.types.lookup refFqn).isSome then
            g.addDependency p.1 refFqn
          else g)
        graph)
    DependencyGraph.new

/-- Models `CRDWalker::map_k8s_import_path`. -/
def mapK8sImportPath (fqn : String) : String :=
  if startsWithStr fqn "io.k8s.apimachinery.pkg.apis.meta." then
    "../../../k8s_io/v1"
  else if startsWithStr fqn "io.k8s.api.core." then
    let parts := splitChar fqn '.'
    match parts.get? 4 with
    | some version => "../../../k8s_io/" ++ version
    | none => "../../../k8s_io/v1"
  else
    "../../../k8s_io/v1"

/-- Length of the common prefix of two segment lists (the `take_while` over
zipped parts in `calculate_import_path`). -/
def countCommonPrefix : List String → List String → Nat
  | a :: as, b :: bs => if a = b then 1 + countCommonPrefix as bs else 0
  | _, _ => 0

/-- Models `CRDWalker::calculate_import_path`. -/
def calculateImportPath (fromModule toModule : String) : String :=
  let fromParts := splitChar fromModule '.'
  let toParts := splitChar toModule '.'
  let commonLen := countCommonPrefix fromParts toParts
  let ups := fromParts.length - commonLen
  let path := List.replicate ups ".." ++ toParts.drop commonLen
  joinSlash path ++ "/mod.ncl"

/-- Models `CRDWalker::generate_alias`. -/
def generateAlias (module : String) : String :=
  if startsWithStr module "../" then
    match (splitChar module '/').reverse.find? (fun s => s ≠ "" ∧ s ≠ "..") with
    | some s => s
    | none => "import"
  else
    match (splitChar module '.').getLast? with
    | some s => s
    | none => module

/-- Models `fqn.rfind('.')` slicing into module and type-name parts, as done
inline in `generate_ir` (`if let Some(last_dot) = dep_fqn.rfind('.')`). -/
def splitLastDot (fqn : String) : Option (String × String) :=
  let parts := splitChar fqn '.'
  if parts.length ≤ 1 then none
  else
    match parts.getLast? with
    | some last => some (joinDot parts.dropLast, last)
    | none => none

/-- Models `HashMap::<String, HashSet<String>>::entry(k).or_default().insert(v)`
on the association-list embedding: an existing entry keeps its position and
gains `v` if absent; a missing entry is appended. -/
def insertIntoSetMap : List (String × List String) → String → String →
    List (String × List String)
  | [], k, v => [(k, [v])]
  | (k', vs) :: rest, k, v =>
    if k' = k then (k', if vs.contains v then vs else vs ++ [v]) :: rest
    else (k', vs) :: insertIntoSetMap rest k v

/-- Models the per-type accumulation step inside `CRDWalker::generate_ir`:
pushes the found type definition and folds its cross-module dependencies
into the import map. -/
def generateIrStep (registry : TypeRegistry) (deps : DependencyGraph)
    (moduleName : String)
    (acc : List TypeDefinition × List (String × List String))
    (typeName : String) :
    List TypeDefinition × List (String × List String) :=
  let fqn := moduleName ++ "." ++ typeName
  match registry.types.lookup fqn with
  | none => acc
  | some typeDef =>
    let importsMap := (deps.getCrossModuleDeps fqn).foldl
      (fun m depFqn =>
        if startsWithStr depFqn "io.k8s." then
          let path := mapK8sImportPath depFqn
          let typeName := match (splitChar depFqn '.').getLast? with
            | some tn => tn
            | none => depFqn
          insertIntoSetMap m path typeName
        else
          match splitLastDot depFqn with
          | some (depModule, depType) => insertIntoSetMap m depModule depType
          | none => m)
      acc.2
    (acc.1 ++ [typeDef], importsMap)

/-- Models `CRDWalker::generate_ir` (`walkers/crd.rs`): groups registry
types by module, computes each module's import map from the cross-module
dependencies, and materializes one `Import` per distinct map key. -/
def generateIr (registry : TypeRegistry) (deps : DependencyGraph) :
    Except WalkerError IR :=
  let ir := registry.modules.foldl
    (fun (ir : IR) mp =>
      let moduleName := mp.1
      let typeNames := mp.2
      let acc := typeNames.foldl
        (generateIrStep registry deps moduleName) ([], [])
      let imports := acc.2.map fun ip =>
        let importModule := ip.1
        let importPath :=
          if startsWithStr importModule "../" then importModule
          else calculateImportPath moduleName importModule
        ({ path := importPath, aliasName := some (generateAlias importModule),
           items := ip.2 } : Import)
      ir.addModule
        { name := moduleName, imports := imports, types := acc.1,
          constants := [], metadata := Metadata.empty })
    IR.new
  .ok ir

/-! ## OpenAPI schema model (subset of the `openapiv3` crate used by the
sources) and the two OpenAPI conversions -/

/-- Description-carrying schema metadata (`openapiv3::SchemaData`); only the
`description` member is read by the modelled code. -/
structure SchemaData where
  description : Option String

mutual

/-- Model of `openapiv3::Schema`. -/
inductive Schema where
  | mk (schemaData : SchemaData) (schemaKind : SchemaKind)

/-- Model of `openapiv3::ReferenceOr<Schema>`. -/
inductive RefOrSchema where
  | reference (ref : String)
  | item (s : Schema)

/-- Model of `openapiv3::SchemaKind`. -/
inductive SchemaKind where
  | type (t : OpenAPIType)
  | oneOf (members : List RefOrSchema)
  | allOf (members : List RefOrSchema)
  | anyOf (members : List RefOrSchema)
  | notSchema (members : List RefOrSchema)
  | any

/-- Model of `openapiv3::Type`; the payloads of the scalar variants are not
read by the modelled code. -/
inductive OpenAPIType where
  | string
  | number
  | integer
  | boolean
  | array (t : ArrayType)
  | object (t : ObjectType)

/-- Model of `openapiv3::ArrayType` (only `items` is read). -/
inductive ArrayType where
  | mk (items : Option RefOrSchema)

/-- Model of `openapiv3::ObjectType`: `properties` map (in iteration order),
`required` name list, and the optional `additional_properties` member. -/
inductive ObjectType where
  | mk (properties : List (String × RefOrSchema)) (required : List String)
      (additionalProperties : Option AdditionalProperties)

/-- Model of `openapiv3::AdditionalProperties`. -/
inductive AdditionalProperties where
  | any (b : Bool)
  | schema (s : RefOrSchema)

end

/-- Projection to the `schema_data` member. -/
def Schema.schemaData : Schema → SchemaData
  | .mk d _ => d

/-- Projection to the `schema_kind` member. -/
def Schema.schemaKind : Schema → SchemaKind
  | .mk _ k => k

/-- The `ParserError` enum is declared in `amalgam-parser/src/error.rs`,
which is not among the provided sources.  Modelled from the spec's §7 error
taxonomy; the only variant constructed by the provided sources is
`UnsupportedFeature(String)`. -/
inductive ParserError where
  | parseError (msg : String)
  | unsupportedFeature (msg : String)
  | invalidReference (msg : String)
  | circularDependency (msg : String)
deriving DecidableEq, Repr

mutual

/-- Models `OpenAPIWalker::schema_to_type` (`walkers/openapi.rs`): `oneOf`
becomes a union of its inline members; `allOf`, `anyOf` and `not` all
degrade to `Any`; references push onto `refs`. -/
def schemaToTypeW (baseModule : String) (schema : Schema)
    (refs : List String) : Except WalkerError (Ty × List String) :=
  match schema with
  | .mk _ (.type .string) => .ok (.string, refs)
  | .mk _ (.type .number) => .ok (.number, refs)
  | .mk _ (.type .integer) => .ok (.integer, refs)
  | .mk _ (.type .boolean) => .ok (.bool, refs)
  | .mk _ (.type (.array (.mk (some (.item itemSchema))))) => do
    let (itemType, refs) ← schemaToTypeW baseModule itemSchema refs
    .ok (.array itemType, refs)
  | .mk _ (.type (.array (.mk (some (.reference _))))) => .ok (.array .any, refs)
  | .mk _ (.type (.array (.mk none))) => .ok (.array .any, refs)
  | .mk _ (.type (.object (.mk properties required additionalProperties))) => do
    let (fields, refs) ← schemaPropsW baseModule required properties refs
    .ok (.record fields additionalProperties.isSome, refs)
  | .mk _ (.oneOf members) => do
    let (types, refs) ← schemaOneOfW baseModule members refs
    .ok (.union types none, refs)
  | .mk _ (.allOf _) => .ok (.any, refs)
  | .mk _ (.anyOf _) => .ok (.any, refs)
  | .mk _ (.notSchema _) => .ok (.any, refs)
  | .mk _ .any => .ok (.any, refs)

/-- The `properties` loop of the object branch of
`OpenAPIWalker::schema_to_type`: inline schemas are converted recursively;
reference properties become `Reference` fields and push the reference
string onto `refs`. -/
def schemaPropsW (baseModule : String) (required : List String)
    (props : List (String × RefOrSchema)) (refs : List String) :
    Except WalkerError (List (String × TyField) × List String) :=
  match props with
  | [] => .ok ([], refs)
  | (name, .item fieldSchema) :: rest => do
    let (fieldType, refs) ← schemaToTypeW baseModule fieldSchema refs
    let fld := TyField.mk fieldType (required.contains name)
      fieldSchema.schemaData.description none
    let (restFields, refs) ← schemaPropsW baseModule required rest refs
    .ok ((name, fld) :: restFields, refs)
  | (name, .reference ref) :: rest => do
    let refs := refs ++ [ref]
    let typeName := match (splitChar ref '/').getLast? with
      | some tn => tn
      | none => ref
    let fld := TyField.mk (.reference typeName (some baseModule))
      (required.contains name) none none
    let (restFields, refs) ← schemaPropsW baseModule required rest refs
    .ok ((name, fld) :: restFields, refs)

/-- The `oneOf` member loop of `OpenAPIWalker::schema_to_type`: the Rust
code runs `filter_map(as_item)` first, so reference members are skipped
without touching `refs`. -/
def schemaOneOfW (baseModule : String) (members : List RefOrSchema)
    (refs : List String) : Except WalkerError (List Ty × List String) :=
  match members with
  | [] => .ok ([], refs)
  | (.item s) :: rest => do
    let (t, refs) ← schemaToTypeW baseModule s refs
    let (ts, refs) ← schemaOneOfW baseModule rest refs
    .ok (t :: ts, refs)
  | (.reference _) :: rest => schemaOneOfW baseModule rest refs

end

mutual

/-- Models the legacy `OpenAPIParser::schema_to_type`
(`amalgam-parser/src/openapi.rs`).  Unlike the walker, `anyOf` builds a
union of inline members, and a `not` schema returns an
`UnsupportedFeature` error instead of degrading to `Any`. -/
def parserSchemaToType (schema : Schema) : Except ParserError Ty :=
  match schema with
  | .mk _ (.type .string) => .ok .string
  | .mk _ (.type .number) => .ok .number
  | .mk _ (.type .integer) => .ok .integer
  | .mk _ (.type .boolean) => .ok .bool
  | .mk _ (.type (.array (.mk (some (.item itemSchema))))) => do
    let itemType ← parserSchemaToType itemSchema
    .ok (.array itemType)
  | .mk _ (.type (.array (.mk (some (.reference _))))) => .ok (.array .any)
  | .mk _ (.type (.array (.mk none))) => .ok (.array .any)
  | .mk _ (.type (.object (.mk properties required additionalProperties))) => do
    let fields ← parserSchemaProps required properties
    .ok (.record fields additionalProperties.isSome)
  | .mk _ (.oneOf members) => do
    let types ← parserSchemaMembers members
    .ok (.union types none)
  | .mk _ (.allOf _) => .ok .any
  | .mk _ (.anyOf members) => do
    let types ← parserSchemaMembers members
    .ok (.union types none)
  | .mk _ (.notSchema _) => .error (.unsupportedFeature "'not' schema")
  | .mk _ .any => .ok .any

/-- The `properties` loop of the object branch of
`OpenAPIParser::schema_to_type`; reference-valued properties are skipped. -/
def parserSchemaProps (required : List String)
    (props : List (String × RefOrSchema)) :
    Except ParserError (List (String × TyField)) :=
  match props with
  | [] => .ok []
  | (name, .item fieldSchema) :: rest => do
    let fieldType ← parserSchemaToType fieldSchema
    let fld := TyField.mk fieldType (required.contains name)
      fieldSchema.schemaData.description none
    let restFields ← parserSchemaProps required rest
    .ok ((name, fld) :: restFields)
  | (_, .reference _) :: rest => parserSchemaProps required rest

/-- The member loop shared by the `oneOf` and `anyOf` branches of
`OpenAPIParser::schema_to_type`; reference members are skipped. -/
def parserSchemaMembers (members : List RefOrSchema) :
    Except ParserError (List Ty) :=
  match members with
  | [] => .ok []
  | (.item s) :: rest => do
    let t ← parserSchemaToType s
    let ts ← parserSchemaMembers rest
    .ok (t :: ts)
  | (.reference _) :: rest => parserSchemaMembers rest

end

/-! ## Type resolver (`amalgam-codegen/src/resolver.rs`) -/

/-- Result of attempting to resolve a type reference (`resolver.rs`). -/
structure Resolution where
  resolvedName : String
  requiredImport : Option Import

/-- Context for type resolution (`resolver.rs`); never read by `resolve`. -/
structure ResolutionContext where
  currentGroup : Option String
  currentVersion : Option String
  currentKind : Option String

/-- The default (all-`None`) resolution context. -/
def ResolutionContext.default : ResolutionContext :=
  { currentGroup := none, currentVersion := none, currentKind := none }

/-- Main type resolver (`resolver.rs`): a per-run cache keyed by the raw
reference string and a static registry of short-name expansions.  Both
`HashMap`s are embedded as association lists with first-match lookup;
insertion conses, which preserves the lookup semantics of
`HashMap::insert`. -/
structure TypeResolver where
  cache : List (String × Resolution)
  typeRegistry : List (String × String)

/-- The static table filled by `TypeResolver::register_common_types`. -/
def registerCommonTypes : List (String × String) :=
  [("ObjectMeta", "io.k8s.apimachinery.pkg.apis.meta.v1.ObjectMeta"),
   ("LabelSelector", "io.k8s.apimachinery.pkg.apis.meta.v1.LabelSelector"),
   ("Time", "io.k8s.apimachinery.pkg.apis.meta.v1.Time")]

/-- Models `TypeResolver::new()`. -/
def TypeResolver.new : TypeResolver :=
  { cache := [], typeRegistry := registerCommonTypes }

/-- Import metadata extracted by `TypeResolver::parse_import_path`. -/
structure ImportInfo where
  moduleName : String
  nspace : String
  fullPath : String

/-- Helper for `trim_end_matches(".ncl")`: strips every trailing `".ncl"`
from a reversed character list. -/
def trimNclRev : List Char → List Char
  | 'l' :: 'c' :: 'n' :: '.' :: rest => trimNclRev rest
  | l => l

/-- Models Rust `path.trim_end_matches(".ncl")`. -/
def trimEndNcl (s : String) : String :=
  String.mk (trimNclRev s.toList.reverse).reverse

/-- Models `TypeResolver::parse_import_path`.  The Rust early return on an
empty `split('/')` result can never fire (`split` always yields at least one
part); both it and the `clean_parts.is_empty()` check collapse into the
`getLast? = none` case here. -/
def parseImportPath (path : String) : Option ImportInfo :=
  let path := trimEndNcl path
  let parts := splitChar path '/'
  let cleanParts := parts.filter fun p => p ≠ "" ∧ p ≠ ".." ∧ p ≠ "."
  match cleanParts.getLast? with
  | none => none
  | some lastPart =>
    let moduleName :=
      if lastPart = "mod" ∧ cleanParts.length > 1 then
        cleanParts.getD (cleanParts.length - 2) ""
      else lastPart
    let nspace :=
      if cleanParts.length > 1 then joinDot cleanParts.dropLast else ""
    some { moduleName := moduleName, nspace := nspace, fullPath := path }

/-- Models `TypeResolver::import_matches_reference`: some dot-segment of
the namespace of the import occurs verbatim inside the reference string. -/
def importMatchesReference (info : ImportInfo) (reference : String) : Bool :=
  if info.nspace = "" then false
  else (splitChar info.nspace '.').any fun part => containsSub reference part

/-- Models `TypeResolver::try_resolve_with_import`. -/
def tryResolveWithImport (reference : String) (imp : Import) : Option String := do
  let lastSlashPart ← (splitChar reference '/').getLast?
  let typeName ← (splitChar lastSlashPart '.').getLast?
  let importInfo ← parseImportPath imp.path
  if importMatchesReference importInfo reference then
    let pfx := match imp.aliasName with
      | some a => a
      | none => importInfo.moduleName
    some (pfx ++ "." ++ typeName)
  else
    none

/-- The `for import in &module.imports` loop of `TypeResolver::resolve`:
first matching import wins. -/
def firstResolve (fullReference : String) : List Import → Option (String × Import)
  | [] => none
  | imp :: rest =>
    match tryResolveWithImport fullReference imp with
    | some resolved => some (resolved, imp)
    | none => firstResolve fullReference rest

/-- Models `TypeResolver::resolve` (`resolver.rs`): cache, short-name
expansion, import matching, local types, then the reference unchanged.  The
`&mut self` mutation becomes returning the updated resolver. -/
def TypeResolver.resolve (r : TypeResolver) (reference : String)
    (module : Module) (_context : ResolutionContext) :
    String × TypeResolver :=
  match r.cache.lookup reference with
  | some cached => (cached.resolvedName, r)
  | none =>
    let fullReference :=
      match r.typeRegistry.lookup reference with
      | some full => full
      | none => reference
    match firstResolve fullReference module.imports with
    | some (resolved, imp) =>
      (resolved,
        { r with cache := (reference,
            { resolvedName := resolved, requiredImport := some imp }) :: r.cache })
    | none =>
      if module.types.any fun td => td.name = reference then
        (reference,
          { r with cache := (reference,
              { resolvedName := reference, requiredImport := none }) :: r.cache })
      else
        (reference, r)

/-! ## Nickel code generator (`amalgam-codegen/src/nickel.rs`) -/

/-- The `CodegenError` enum is declared in `amalgam-codegen/src/lib.rs`,
which is not among the provided sources.  Modelled from the spec's §7
taxonomy (GenerationError); the only variant constructed by `nickel.rs` is
`Generation(String)`. -/
inductive CodegenError where
  | generation (msg : String)
deriving DecidableEq, Repr

/-- The `PackageMode` type is declared in `amalgam-codegen/src/package_mode.rs`,
which is not among the provided sources.  Modelled from the spec: the spec's
path conventions use walker-computed relative file paths directly, so the
default mode's `convert_import` leaves the path unchanged. -/
inductive PackageMode where
  | default
deriving DecidableEq, Repr

/-- Modelled from the spec: `PackageMode::convert_import` in the default
mode returns the path unchanged. -/
def PackageMode.convertImport (_ : PackageMode) (path : String) : String :=
  path

/-- The `NickelCodegen` struct (`nickel.rs`): indent width, the resolver,
the package mode, and the per-module set of `(version, type_name)` imports
discovered while emitting cross-version references. -/
structure NickelCodegen where
  indentSize : Nat
  resolver : TypeResolver
  packageMode : PackageMode
  currentImports : List (String × String)

/-- Models `NickelCodegen::new()`. -/
def NickelCodegen.new : NickelCodegen :=
  { indentSize := 2, resolver := TypeResolver.new, packageMode := .default,
    currentImports := [] }

/-- Models `NickelCodegen::indent`: `level * indent_size` spaces. -/
def indentStr (cg : NickelCodegen) (level : Nat) : String :=
  repeatStr (level * cg.indentSize) " "

/-- Models `NickelCodegen::is_reserved_keyword`. -/
def isReservedKeyword (name : String) : Bool :=
  name ∈ ["and", "or", "not", "if", "then", "else", "let", "in", "fun",
    "import", "match", "rec", "null", "true", "false", "switch", "default",
    "forall", "doc", "optional", "priority", "force", "merge"]

/-- Does the string start with the given character?  Models Rust
`s.starts_with(char)`. -/
def startsWithChar (s : String) (c : Char) : Bool :=
  match s.toList with
  | [] => false
  | h :: _ => h = c

/-- Models `NickelCodegen::escape_field_name`: quote names that start with
`$` or are reserved keywords. -/
def escapeFieldName (name : String) : String :=
  if startsWithChar name '$' || isReservedKeyword name then
    "\"" ++ name ++ "\""
  else
    name

/-- Models Rust `doc.replace('"', "\\\"")`. -/
def escapeQuotes (s : String) : String :=
  String.mk (s.toList.flatMap fun c => if c = '"' then ['\\', '"'] else [c])

/-- ASCII whitespace test modelling `char::is_whitespace` on the ASCII
range that the modelled documentation strings use. -/
def isWs (c : Char) : Bool :=
  c = ' ' ∨ c = '\t' ∨ c = '\n' ∨ c = '\r'

/-- Models Rust `s.trim()`. -/
def trimStr (s : String) : String :=
  String.mk (((s.toList.dropWhile isWs).reverse.dropWhile isWs).reverse)

/-- Models Rust `String::len` (UTF-8 byte length). -/
def byteLen (s : String) : Nat :=
  s.toList.foldl (fun n c => n + c.utf8Size) 0

/-- Models `NickelCodegen::format_doc`: block form for multiline or long
documentation, quoted-and-escaped form otherwise. -/
def formatDoc (doc : String) : String :=
  if charContains doc '\n' || byteLen doc > 80 then
    "m%\"\n" ++ trimStr doc ++ "\n\"%"
  else
    "\"" ++ escapeQuotes doc ++ "\""

/-- Generic separator join, modelling `Vec::join(sep)`. -/
def joinSep (sep : String) : List String → String
  | [] => ""
  | [x] => x
  | x :: y :: xs => x ++ sep ++ joinSep sep (y :: xs)

mutual

/-- Models the free function `format_json_value_impl` (`nickel.rs`):
renders a JSON value as Nickel source, escaping object keys like field
names.  The indent width is hard-coded to 2 in the Rust free function. -/
def formatJsonValue : Json → Nat → String
  | .null, _ => "null"
  | .bool b, _ => if b then "true" else "false"
  | .num n, _ => toString n
  | .str s, _ => "\"" ++ escapeQuotes s ++ "\""
  | .arr items, level => "[" ++ joinSep ", " (formatJsonArr items level) ++ "]"
  | .obj entries, level =>
    if entries.isEmpty then "\x7b\x7d"
    else
      "\x7b\n" ++ joinSep ",\n" (formatJsonObj entries level) ++ "\n" ++
        repeatStr (level * 2) " " ++ "\x7d"

/-- Array-element rendering loop of `format_json_value_impl`. -/
def formatJsonArr : List Json → Nat → List String
  | [], _ => []
  | v :: vs, level => formatJsonValue v level :: formatJsonArr vs level

/-- Object-entry rendering loop of `format_json_value_impl`. -/
def formatJsonObj : List (String × Json) → Nat → List String
  | [], _ => []
  | (k, v) :: rest, level =>
    (repeatStr ((level + 1) * 2) " " ++ escapeFieldName k ++ " = " ++
      formatJsonValue v (level + 1)) :: formatJsonObj rest level

end

/-- The resolver fallback of the `Reference` branch of
`NickelCodegen::type_to_nickel`: resolve against the module with an empty
resolution context, updating the resolver cache. -/
def referenceFallback (cg : NickelCodegen) (name : String) (module : Module) :
    Except CodegenError (String × NickelCodegen) :=
  let context : ResolutionContext :=
    { currentGroup := none, currentVersion := none, currentKind := none }
  let res := cg.resolver.resolve name module context
  .ok (res.1, { cg with resolver := res.2 })

/-- Last element with a default, modelling the guarded index
`parts[parts.len() - 1]`. -/
def getLastD (l : List String) (d : String) : String :=
  match l.getLast? with
  | some x => x
  | none => d

/-- The stable by-name sort applied to record fields in
`type_to_nickel` (`sorted_fields.sort_by_key(|(name, _)| *name)`);
insertion sort is stable, like the Rust sort. -/
def sortFieldsByKey (fields : List (String × TyField)) :
    List (String × TyField) :=
  List.insertionSort (fun a b => a.1 ≤ b.1) fields

/-- Permutations preserve the `sizeOf` of a list; used for termination of
the record branch, which sorts the fields before recursing. -/
theorem sizeOf_eq_of_perm {α} [SizeOf α] {l1 l2 : List α} (h : l1.Perm l2) :
    sizeOf l1 = sizeOf l2 := by
  induction h with
  | nil => rfl
  | cons x _ ih => simp only [List.cons.sizeOf_spec, ih]
  | swap x y l => simp only [List.cons.sizeOf_spec]; omega
  | trans _ _ ih1 ih2 => omega

/-- Set-insertion into the codegen's `current_imports`
(`HashSet<(String, String)>::insert`). -/
def insertPair (s : List (String × String)) (p : String × String) :
    List (String × String) :=
  if s.contains p then s else s ++ [p]

mutual

/-- Models `NickelCodegen::type_to_nickel` (`nickel.rs`): renders a type,
threading the `&mut self` state (resolver cache and discovered
cross-version imports). -/
def typeToNickel (cg : NickelCodegen) (ty : Ty)
    (module : Module) (indentLevel : Nat) :
    Except CodegenError (String × NickelCodegen) :=
  match ty with
  | .string => .ok ("String", cg)
  | .number => .ok ("Number", cg)
  | .integer => .ok ("Number", cg)
  | .bool => .ok ("Bool", cg)
  | .null => .ok ("Null", cg)
  | .any => .ok ("Dyn", cg)
  | .array elem => do
    let (elemType, cg) ← typeToNickel cg elem module indentLevel
    .ok ("Array " ++ elemType, cg)
  | .map _ value => do
    let (valueType, cg) ← typeToNickel cg value module indentLevel
    .ok ("\x7b _ : " ++ valueType ++ " \x7d", cg)
  | .optional inner => do
    let (innerType, cg) ← typeToNickel cg inner module indentLevel
    .ok (innerType ++ " | Null", cg)
  | .record fields isOpen =>
    if fields.isEmpty ∧ isOpen then .ok ("\x7b .. \x7d", cg)
    else do
      let sortedFields := sortFieldsByKey fields
      let (body, cg) ← recordFieldsToNickel cg sortedFields module
        (indentLevel + 1)
      .ok ("\x7b\n" ++ body ++
        (if isOpen then indentStr cg (indentLevel + 1) ++ ".. | Dyn,\n"
          else "") ++
        indentStr cg indentLevel ++ "\x7d", cg)
  | .union types hint =>
    match hint with
    | some .preferString => .ok ("String", cg)
    | some .preferNumber => .ok ("Number", cg)
    | some (.custom handler) => .ok (handler, cg)
    | some .noPreference => do
      let (memberStrs, cg) ← unionMembersToNickel cg types module indentLevel
      .ok (joinSep " | " memberStrs, cg)
    | none => do
      let (memberStrs, cg) ← unionMembersToNickel cg types module indentLevel
      .ok (joinSep " | " memberStrs, cg)
  | .taggedUnion tagField variants => do
    let (contracts, cg) ← taggedVariantsToNickel cg tagField variants module
      indentLevel
    .ok (joinSep " | " contracts, cg)
  | .reference name refModule =>
    match refModule with
    | some rm =>
      if containsSub rm "io.k8s." ∧ containsSub module.name "io.k8s." then
        let refParts := splitChar rm '.'
        let currentParts := splitChar module.name '.'
        if refParts.length > 2 ∧ currentParts.length > 2 then
          let refVersion := getLastD refParts ""
          let currentVersion := getLastD currentParts ""
          if refVersion ≠ currentVersion then
            let snakeName := lowerStr name
            let newImports := insertPair cg.currentImports (refVersion, snakeName)
            let cg := { cg with currentImports := newImports }
            .ok (refVersion ++ "_" ++ snakeName ++ "." ++ name, cg)
          else referenceFallback cg name module
        else referenceFallback cg name module
      else referenceFallback cg name module
    | none => referenceFallback cg name module
  | .contract base predicate => do
    let (baseType, cg) ← typeToNickel cg base module indentLevel
    .ok (baseType ++ " | Contract(" ++ predicate ++ ")", cg)
termination_by (sizeOf ty, 0)
decreasing_by
  all_goals first
  | decreasing_tactic
  | (simp_wf
     have hsz := sizeOf_eq_of_perm
       (List.perm_insertionSort (fun (a b : String × TyField) => a.1 ≤ b.1)
         fields)
     simp only [sortFieldsByKey]
     omega)

/-- The sorted-field emission loop of the record branch of
`type_to_nickel`: each field rendered by `field_to_nickel` followed by
`",\n"`. -/
def recordFieldsToNickel (cg : NickelCodegen)
    (fields : List (String × TyField)) (module : Module)
    (indentLevel : Nat) : Except CodegenError (String × NickelCodegen) :=
  match fields with
  | [] => .ok ("", cg)
  | (name, .mk fty frequired fdescription fdefault) :: rest => do
    let (fieldStr, cg) ← fieldToNickel cg name fty frequired fdescription
      fdefault module indentLevel
    let (restStr, cg) ← recordFieldsToNickel cg rest module indentLevel
    .ok (fieldStr ++ ",\n" ++ restStr, cg)
termination_by (sizeOf fields, 0)

/-- Models `NickelCodegen::field_to_nickel`: name (escaped), `optional`
unless a default exists, type, documentation, then default — joined with
`" | "`. -/
def fieldToNickel (cg : NickelCodegen) (name : String) (fty : Ty)
    (_frequired : Bool) (fdescription : Option String)
    (fdefault : Option Json) (module : Module) (indentLevel : Nat) :
    Except CodegenError (String × NickelCodegen) := do
  let indent := indentStr cg indentLevel
  let (typeStr, cg) ← typeToNickel cg fty module indentLevel
  let parts : List String :=
    [indent ++ escapeFieldName name] ++
    (if fdefault.isNone then ["optional"] else []) ++
    [typeStr] ++
    (match fdescription with
      | some desc => ["doc " ++ formatDoc desc]
      | none => []) ++
    (match fdefault with
      | some dv => ["default = " ++ formatJsonValue dv indentLevel]
      | none => [])
  .ok (joinSep " | " parts, cg)
termination_by (sizeOf fty, 1)

/-- The member emission loop of the union branch of `type_to_nickel`. -/
def unionMembersToNickel (cg : NickelCodegen) (types : List Ty)
    (module : Module) (indentLevel : Nat) :
    Except CodegenError (List String × NickelCodegen) :=
  match types with
  | [] => .ok ([], cg)
  | t :: ts => do
    let (s, cg) ← typeToNickel cg t module indentLevel
    let (rest, cg) ← unionMembersToNickel cg ts module indentLevel
    .ok (s :: rest, cg)
termination_by (sizeOf types, 0)

/-- The variant emission loop of the tagged-union branch of
`type_to_nickel`. -/
def taggedVariantsToNickel (cg : NickelCodegen) (tagField : String)
    (variants : List (String × Ty)) (module : Module) (indentLevel : Nat) :
    Except CodegenError (List String × NickelCodegen) :=
  match variants with
  | [] => .ok ([], cg)
  | (tag, variantType) :: rest => do
    let (variantStr, cg) ← typeToNickel cg variantType module indentLevel
    let (restStrs, cg) ← taggedVariantsToNickel cg tagField rest module
      indentLevel
    .ok (("(" ++ tagField ++ " == \"" ++ tag ++ "\" && " ++ variantStr ++ ")")
      :: restStrs, cg)
termination_by (sizeOf variants, 0)

end

/-- Models Rust `s.replace('/', "_")` (used for the default import alias). -/
def replaceSlashes (s : String) : String :=
  String.mk (s.toList.map fun c => if c = '/' then '_' else c)

/-- Drops one trailing carriage return, as Rust `str::lines` does per line. -/
def dropTrailingCr (l : String) : String :=
  match l.toList.getLast? with
  | some c => if c = '\r' then String.mk l.toList.dropLast else l
  | none => l

/-- Models Rust `str::lines()`: newline-terminated splitting (a final
newline does not produce a trailing empty line). -/
def linesOf (s : String) : List String :=
  let parts := (splitChar s '\n').map dropTrailingCr
  match parts.getLast? with
  | some last => if last = "" then parts.dropLast else parts
  | none => parts

/-- The stable lexicographic sort applied to the discovered cross-version
entries in `generate` (`imports.sort_by_key(|(ver, name)| (ver, name))`). -/
def sortPairsLex (l : List (String × String)) : List (String × String) :=
  List.insertionSort
    (fun a b => a.1 < b.1 ∨ (a.1 = b.1 ∧ a.2 ≤ b.2)) l

/-- The first pass over a module's type definitions in
`NickelCodegen::generate`: renders every type (the rendered strings are
collected but never read — the pass exists for its side effect of
populating `current_imports` before the import section is written). -/
def nickelFirstPass (cg : NickelCodegen) (types : List TypeDefinition)
    (module : Module) :
    Except CodegenError (List (TypeDefinition × String) × NickelCodegen) :=
  match types with
  | [] => .ok ([], cg)
  | td :: rest => do
    let (typeStr, cg) ← typeToNickel cg td.ty module 1
    let (restStrs, cg) ← nickelFirstPass cg rest module
    .ok ((td, typeStr) :: restStrs, cg)

/-- The type-emission loop of `NickelCodegen::generate`: documentation
lines as comments, then `  name = rendered,` with a blank separator line
between consecutive types. -/
def nickelEmitTypes (cg : NickelCodegen) (types : List TypeDefinition)
    (module : Module) (idx total : Nat) :
    Except CodegenError (String × NickelCodegen) :=
  match types with
  | [] => .ok ("", cg)
  | td :: rest => do
    let (typeStr, cg) ← typeToNickel cg td.ty module 1
    let docStr := match td.documentation with
      | some doc =>
        String.join ((linesOf doc).map fun line =>
          indentStr cg 1 ++ "# " ++ line ++ "\n")
      | none => ""
    let entry := docStr ++ "  " ++ td.name ++ " = " ++ typeStr ++ ",\n"
    let spacing := if idx < total - 1 then "\n" else ""
    let (restStr, cg) ← nickelEmitTypes cg rest module (idx + 1) total
    .ok (entry ++ spacing ++ restStr, cg)

/-- The constants section of `NickelCodegen::generate`. -/
def emitConstants (constants : List Constant) : String :=
  if constants.isEmpty then ""
  else
    "\n" ++ String.join (constants.map fun c =>
      (match c.documentation with
        | some doc => "  # " ++ doc ++ "\n"
        | none => "") ++
      "  " ++ c.name ++ " = " ++ formatJsonValue c.value 1 ++ ",\n")

/-- One module's emission inside `NickelCodegen::generate` (`nickel.rs`):
clear the import set, run the first rendering pass, then emit header,
discovered cross-version imports (sorted), walker-computed imports, and the
container with all types and constants (types rendered a second time). -/
def nickelGenModule (cg : NickelCodegen) (module : Module) :
    Except CodegenError (String × NickelCodegen) := do
  let cg := { cg with currentImports := [] }
  let (_typeStrings, cg) ← nickelFirstPass cg module.types module
  let header := "# Module: " ++ module.name ++ "\n" ++ "\n"
  let walkerImportsStr :=
    if cg.currentImports.isEmpty then ""
    else
      String.join ((sortPairsLex cg.currentImports).map fun p =>
        "let " ++ p.1 ++ "_" ++ p.2 ++ " = import \"../" ++ p.1 ++ "/" ++
          p.2 ++ "\" in\n") ++ "\n"
  let moduleImportsStr :=
    if module.imports.isEmpty then ""
    else
      String.join (module.imports.map fun imp =>
        let importPath := cg.packageMode.convertImport imp.path
        let importAlias := match imp.aliasName with
          | some a => a
          | none => replaceSlashes imp.path
        (if ¬ charContains importPath '/' ∧ startsWithChar importPath '"' then
          "let " ++ importAlias ++ " = import " ++ importPath ++ " in"
        else
          "let " ++ importAlias ++ " = import \"" ++ importPath ++ "\" in") ++
          "\n") ++ "\n"
  let (typesStr, cg) ← nickelEmitTypes cg module.types module 0
    module.types.length
  let constantsStr := emitConstants module.constants
  .ok (header ++ walkerImportsStr ++ moduleImportsStr ++ "\x7b\n" ++ typesStr ++
    constantsStr ++ "\x7d\n", cg)

/-- The module loop of `NickelCodegen::generate`. -/
def nickelGenModules (cg : NickelCodegen) (modules : List Module) :
    Except CodegenError (String × NickelCodegen) :=
  match modules with
  | [] => .ok ("", cg)
  | m :: ms => do
    let (s, cg) ← nickelGenModule cg m
    let (rest, cg) ← nickelGenModules cg ms
    .ok (s ++ rest, cg)

/-- Models `<NickelCodegen as Codegen>::generate` (`nickel.rs`): renders
every module of the IR into one output string, threading the codegen
state. -/
def nickelGenerate (cg : NickelCodegen) (ir : IR) :
    Except CodegenError (String × NickelCodegen) :=
  nickelGenModules cg ir.modules

mutual

/-- Specification predicate: every `Union` node anywhere in the type tree
carries no coercion hint.  Used to state that the generic walkers never
assign a hint. -/
def noHints : Ty → Bool
  | .array t => noHints t
  | .map k v => noHints k && noHints v
  | .optional t => noHints t
  | .record fields _ => noHintsFields fields
  | .union types h => h.isNone && noHintsList types
  | .taggedUnion _ variants => noHintsVariants variants
  | .contract b _ => noHints b
  | _ => true

/-- Hint-freedom over a list of member types. -/
def noHintsList : List Ty → Bool
  | [] => true
  | t :: ts => noHints t && noHintsList ts

/-- Hint-freedom over a record field map. -/
def noHintsFields : List (String × TyField) → Bool
  | [] => true
  | (_, .mk ty _ _ _) :: fs => noHints ty && noHintsFields fs

/-- Hint-freedom over a tagged-union variant map. -/
def noHintsVariants : List (String × Ty) → Bool
  | [] => true
  | (_, t) :: vs => noHints t && noHintsVariants vs

end


/-- The `required` name list the CRD walker reads from an object schema
(the inline `let required` of the `object` branch of
`json_schema_to_type`), named for use in the claim statements. -/
def requiredNames (schema : Json) : List String :=
  match (schema.getKey "required").bind Json.asArray with
  | some arr => arr.filterMap Json.asStr
  | none => []

/-- The composition of `generate_ir` and the Nickel `generate` on one
registry/graph pair, as exercised by the determinism claim. -/
def pipelineRender (registry : TypeRegistry) (deps : DependencyGraph) :
    Except CodegenError String :=
  match generateIr registry deps with
  | .ok ir => (nickelGenerate NickelCodegen.new ir).map Prod.fst
  | .error _ => .error (.generation "walker failed")

/-- Concrete import mirroring the `test_kubernetes_resolution` fixture of
`resolver.rs`, used by the claim witnesses. -/
def k8sTestImport : Import :=
  { path := "../../../k8s.io/apimachinery/v1/mod.ncl",
    aliasName := some "k8s_v1", items := [] }

/-- Concrete module carrying `k8sTestImport`, used by the claim witnesses. -/
def k8sTestModule : Module :=
  { name := "test", imports := [k8sTestImport], types := [], constants := [],
    metadata := Metadata.empty }

/-- A module with no imports and no types, used by the claim witnesses. -/
def emptyTestModule : Module :=
  { name := "empty", imports := [], types := [], constants := [],
    metadata := Metadata.empty }

/-- A `Spec = String` type definition, used by the determinism
counterexample. -/
def specStringTypeDef : TypeDefinition :=
  { name := "Spec", ty := .string, documentation := none, annotations := [] }

/-- A registry with two single-type modules, in one iteration order. -/
def registryAB : TypeRegistry :=
  { types := [("a.v1.Spec", specStringTypeDef), ("b.v1.Spec", specStringTypeDef)],
    modules := [("a.v1", ["Spec"]), ("b.v1", ["Spec"])] }

/-- The same registry as `registryAB` as a finite map — equal `types` and a
permuted `modules` association list — in the other iteration order. -/
def registryBA : TypeRegistry :=
  { types := [("a.v1.Spec", specStringTypeDef), ("b.v1.Spec", specStringTypeDef)],
    modules := [("b.v1", ["Spec"]), ("a.v1", ["Spec"])] }

/-! # Claim theorems -/

/-- C1: every entry of `get_cross_module_deps fqn` has a module prefix (the
part before the last dot) different from `fqn`'s own, and in particular a
self-edge `fqn → fqn` — legal in the graph — never appears in the
cross-module dependency list, so a self-referential type never produces a
self-import.  (Reference collection and the dependency query are total
structural recursions in this embedding, so they terminate on recursive
types by construction.) -/
theorem crossModuleDeps_excludes_own_module (g : DependencyGraph)
    (fqn : String) :
    (∀ d ∈ g.getCrossModuleDeps fqn, extractModule d ≠ extractModule fqn) ∧
      fqn ∉ g.getCrossModuleDeps fqn := by
  constructor
  · intro d hd
    have := (List.mem_filter.mp hd).2
    simpa using this
  · intro hmem
    have := (List.mem_filter.mp hmem).2
    simp at this

/-- Witness for C1 at a concrete self-referential graph: the type
`example.com.v1.Spec` depends on itself and on a `k8s` type; its
cross-module dependency list excludes itself, and the cross-module entry's
module differs from its own. -/
theorem crossModuleDeps_excludes_own_module_witness :
    extractModule "io.k8s.api.core.v1.Pod" ≠ extractModule "example.com.v1.Spec" ∧
    "example.com.v1.Spec" ∉
      (((DependencyGraph.new.addDependency "example.com.v1.Spec"
          "example.com.v1.Spec").addDependency "example.com.v1.Spec"
          "io.k8s.api.core.v1.Pod").getCrossModuleDeps "example.com.v1.Spec") :=
  ⟨(crossModuleDeps_excludes_own_module
      ((DependencyGraph.new.addDependency "example.com.v1.Spec"
        "example.com.v1.Spec").addDependency "example.com.v1.Spec"
        "io.k8s.api.core.v1.Pod") "example.com.v1.Spec").1
      "io.k8s.api.core.v1.Pod" (by decide),
   (crossModuleDeps_excludes_own_module
      ((DependencyGraph.new.addDependency "example.com.v1.Spec"
        "example.com.v1.Spec").addDependency "example.com.v1.Spec"
        "io.k8s.api.core.v1.Pod") "example.com.v1.Spec").2⟩

/-- C2: `import_path` returns one `"../"` segment per directory level from
the consumer's file to the shared package root (package directory, optional
group subdirectory, version directory), followed by the target's package
directory, optional group subdirectory, version, and the lower-cased kind
name plus `".ncl"`; in particular `ObjectMeta` in group `k8s.io` version
`v1`, imported from group `apiextensions.crossplane.io` version `v1`,
yields `"../../../k8s_io/v1/objectmeta.ncl"`, which ends in
`"v1/objectmeta.ncl"`. -/
theorem importPath_matches_spec :
    (∀ (t : TypeReference) (fg fv : String),
      importPath t fg fv = specImportPath t fg) ∧
    importPath ⟨"k8s.io", "v1", "ObjectMeta"⟩ "apiextensions.crossplane.io" "v1"
      = "../../../k8s_io/v1/objectmeta.ncl" ∧
    endsWithStr "../../../k8s_io/v1/objectmeta.ncl" "v1/objectmeta.ncl" = true := by
  refine ⟨fun t fg fv => ?_, by decide, by decide⟩
  unfold importPath specImportPath specConsumerDepth specTargetPath
    fromComponents toComponents
  cases h1 : needsGroupSubdir fg (groupToPackage fg) <;>
  cases h2 : needsGroupSubdir t.group (groupToPackage t.group) <;>
  simp only [h1, h2, if_true, if_false, Bool.false_eq_true, Bool.true_eq_false,
    ite_true, ite_false, List.length, List.append, joinSlash, repeatStr,
    List.length_nil, List.length_cons] <;>
  simp [show ("../../" : String) = "../" ++ "../" from rfl,
    show ("../../../" : String) = "../" ++ ("../" ++ "../") from rfl,
    String.append_assoc]

/-- C8: `is_compatible` is reflexive on each of the six primitive types,
accepts `Null` against `Optional(T)` for every `T`, widens `Integer` to
`Number`, and rejects `Number` against `Integer` — for every side table and
every positive fuel. -/
theorem isCompatible_primitive_rules (ts : TypeSystem) (f : Nat) :
    (TypeSystem.isCompatible ts (f + 1) .string .string = true ∧
      TypeSystem.isCompatible ts (f + 1) .number .number = true ∧
      TypeSystem.isCompatible ts (f + 1) .integer .integer = true ∧
      TypeSystem.isCompatible ts (f + 1) .bool .bool = true ∧
      TypeSystem.isCompatible ts (f + 1) .null .null = true ∧
      TypeSystem.isCompatible ts (f + 1) .any .any = true) ∧
    (∀ t : Ty, TypeSystem.isCompatible ts (f + 1) .null (.optional t) = true) ∧
    TypeSystem.isCompatible ts (f + 1) .integer .number = true ∧
    TypeSystem.isCompatible ts (f + 1) .number .integer = false := by
  refine ⟨⟨?_, ?_, ?_, ?_, ?_, ?_⟩, fun t => ?_, ?_, ?_⟩ <;>
    simp [TypeSystem.isCompatible, Ty.beq]

/-- Preservation lemma for C10: one `add_dependency` call keeps the two
maps mutually inverse. -/
theorem addDependency_preserves_inverse (g : DependencyGraph)
    (h : ∀ a b, b ∈ g.dependencies a ↔ a ∈ g.dependents b) (f t : String) :
    ∀ a b, b ∈ (g.addDependency f t).dependencies a ↔
      a ∈ (g.addDependency f t).dependents b := by
  intro a b
  simp only [DependencyGraph.addDependency]
  by_cases ha : a = f <;> by_cases hb : b = t <;>
    simp [ha, hb, List.mem_insert_iff, h]

/-- C10: after any sequence of `add_dependency` calls starting from
`DependencyGraph::new`, `b ∈ dependencies[a]` holds exactly when
`a ∈ dependents[b]`. -/
theorem dependencyGraph_maps_mutual_inverse (ops : List (String × String))
    (a b : String) :
    b ∈ (DependencyGraph.ofOps ops).dependencies a ↔
      a ∈ (DependencyGraph.ofOps ops).dependents b := by
  suffices h : ∀ (g : DependencyGraph),
      (∀ a b, b ∈ g.dependencies a ↔ a ∈ g.dependents b) →
      ∀ a b,
        b ∈ (ops.foldl (fun g p => g.addDependency p.1 p.2) g).dependencies a ↔
        a ∈ (ops.foldl (fun g p => g.addDependency p.1 p.2) g).dependents b by
    exact h DependencyGraph.new (by intro a b; simp [DependencyGraph.new]) a b
  induction ops with
  | nil => intro g hg; exact hg
  | cons p rest ih =>
    intro g hg
    exact ih _ (addDependency_preserves_inverse g hg p.1 p.2)

/-- Helper: every field produced by the CRD property loop carries
`required = required.contains name`. -/
theorem jsonSchemaProps_required_fields (base : String) (required : List String) :
    ∀ (props : List (String × Json)) (refs fields : List String) (flds : List (String × TyField)) (refs' : List String),
      jsonSchemaProps base required props refs = .ok (flds, refs') →
      ∀ name fld, (name, fld) ∈ flds → fld.required = required.contains name := by
  intro props
  induction props with
  | nil =>
    intro refs _ flds refs' h name fld hmem
    simp [jsonSchemaProps] at h
    rw [show flds = [] from h.1] at hmem
    simp at hmem
  | cons p rest ih =>
    intro refs _ flds refs' h name fld hmem
    obtain ⟨pname, pschema⟩ := p
    simp only [jsonSchemaProps] at h
    cases h1 : jsonSchemaToType base pschema refs with
    | error e => rw [h1] at h; simp [Bind.bind, Except.bind] at h
    | ok v =>
      obtain ⟨ft, refs1⟩ := v
      rw [h1] at h
      simp only [Bind.bind, Except.bind] at h
      cases h2 : jsonSchemaProps base required rest refs1 with
      | error e => rw [h2] at h; simp at h
      | ok w =>
        obtain ⟨restFlds, refs2⟩ := w
        rw [h2] at h
        simp only [Except.ok.injEq, Prod.mk.injEq] at h
        obtain ⟨hf, hr⟩ := h
        subst hf
        rcases List.mem_cons.mp hmem with heq | hmem'
        · injection heq with hn hfld
          subst hn hfld
          rfl
        · exact ih refs1 [] restFlds refs2 h2 name fld hmem'

/-- Helper: every field produced by the OpenAPI walker property loop
carries `required = required.contains name`. -/
theorem schemaPropsW_required_fields (base : String) (required : List String) :
    ∀ (props : List (String × RefOrSchema)) (refs : List String)
      (flds : List (String × TyField)) (refs' : List String),
      schemaPropsW base required props refs = .ok (flds, refs') →
      ∀ name fld, (name, fld) ∈ flds → fld.required = required.contains name := by
  intro props
  induction props with
  | nil =>
    intro refs flds refs' h name fld hmem
    simp [schemaPropsW] at h
    rw [show flds = [] from h.1] at hmem
    simp at hmem
  | cons p rest ih =>
    intro refs flds refs' h name fld hmem
    obtain ⟨pname, pref⟩ := p
    cases pref with
    | item fieldSchema =>
      simp only [schemaPropsW] at h
      cases h1 : schemaToTypeW base fieldSchema refs with
      | error e => rw [h1] at h; simp [Bind.bind, Except.bind] at h
      | ok v =>
        obtain ⟨ft, refs1⟩ := v
        rw [h1] at h
        simp only [Bind.bind, Except.bind] at h
        cases h2 : schemaPropsW base required rest refs1 with
        | error e => rw [h2] at h; simp at h
        | ok w =>
          obtain ⟨restFlds, refs2⟩ := w
          rw [h2] at h
          simp only [Except.ok.injEq, Prod.mk.injEq] at h
          obtain ⟨hf, hr⟩ := h
          subst hf
          rcases List.mem_cons.mp hmem with heq | hmem'
          · injection heq with hn hfld
            subst hn hfld
            rfl
          · exact ih refs1 restFlds refs2 h2 name fld hmem'
    | reference ref =>
      simp only [schemaPropsW] at h
      cases h2 : schemaPropsW base required rest (refs ++ [ref]) with
      | error e => rw [h2] at h; simp [Bind.bind, Except.bind] at h
      | ok w =>
        obtain ⟨restFlds, refs2⟩ := w
        rw [h2] at h
        simp only [Bind.bind, Except.bind, Except.ok.injEq, Prod.mk.injEq] at h
        obtain ⟨hf, hr⟩ := h
        subst hf
        rcases List.mem_cons.mp hmem with heq | hmem'
        · injection heq with hn hfld
          subst hn hfld
          rfl
        · exact ih (refs ++ [ref]) restFlds refs2 h2 name fld hmem'

/-- Helper: the CRD schema conversion never returns an error. -/
theorem jsonSchemaToType_never_errors (base : String) (schema : Json) (refs : List String) :
    ∃ t refs2, jsonSchemaToType base schema refs = .ok (t, refs2) := by
  induction schema, refs using jsonSchemaToType.induct with
  | motive2 schemas refs => exact
      ∃ ts refs2, jsonSchemaList base schemas refs = .ok (ts, refs2)
  | motive3 required props refs => exact
      ∃ flds refs2, jsonSchemaProps base required props refs = .ok (flds, refs2)
  | baseModule => exact base
  | case1 schema refs tn h => simp [jsonSchemaToType, h]
  | case2 schema refs h1 h2 => simp [jsonSchemaToType, h1, h2]
  | case3 schema refs h1 h2 => simp [jsonSchemaToType, h1, h2]
  | case4 schema refs h1 h2 => simp [jsonSchemaToType, h1, h2]
  | case5 schema refs h1 h2 => simp [jsonSchemaToType, h1, h2]
  | case6 schema refs h1 h2 => simp [jsonSchemaToType, h1, h2]
  | case7 schema refs h1 h2 itemsSchema hi ih =>
    obtain ⟨t, refs2, ht⟩ := ih
    rw [jsonSchemaToType.eq_def]
    simp only [h1, h2]
    split
    next itemsSchema2 hi2 =>
      rw [hi] at hi2
      injection hi2 with hi2
      subst hi2
      simp [ht, Bind.bind, Except.bind]
    next hi2 => rw [hi] at hi2; cases hi2
  | case8 schema refs h1 h2 hi =>
    rw [jsonSchemaToType.eq_def]
    simp only [h1, h2]
    split
    next itemsSchema2 hi2 => rw [hi] at hi2; cases hi2
    next hi2 => simp
  | case9 schema refs h1 h2 required props hp ih =>
    obtain ⟨flds, refs2, hf⟩ := ih
    rw [jsonSchemaToType.eq_def]
    simp only [h1, h2]
    split
    next props2 hp2 =>
      rw [hp] at hp2
      injection hp2 with hp2
      subst hp2
      simp [hf, Bind.bind, Except.bind]
    next hp2 => rw [hp] at hp2; cases hp2
  | case10 schema refs h1 h2 hp =>
    rw [jsonSchemaToType.eq_def]
    simp only [h1, h2]
    split
    next props2 hp2 => rw [hp] at hp2; cases hp2
    next hp2 => simp
  | case11 schema refs h1 h2 oneOfList ho ih =>
    obtain ⟨ts, refs2, ht⟩ := ih
    rw [jsonSchemaToType.eq_def]
    simp only [h1, h2]
    split
    next l2 ho2 =>
      rw [ho] at ho2
      injection ho2 with ho2
      subst ho2
      simp [ht, Bind.bind, Except.bind]
    next ho2 => rw [ho] at ho2; cases ho2
  | case12 schema refs h1 h2 ho anyOfList ha ih =>
    obtain ⟨ts, refs2, ht⟩ := ih
    rw [jsonSchemaToType.eq_def]
    simp only [h1, h2]
    split
    next l2 ho2 => rw [ho] at ho2; cases ho2
    next ho2 =>
      split
      next l2 ha2 =>
        rw [ha] at ha2
        injection ha2 with ha2
        subst ha2
        simp [ht, Bind.bind, Except.bind]
      next ha2 => rw [ha] at ha2; cases ha2
  | case13 schema refs h1 h2 ho ha =>
    rw [jsonSchemaToType.eq_def]
    simp only [h1, h2]
    split
    next l2 ho2 => rw [ho] at ho2; cases ho2
    next ho2 =>
      split
      next l2 ha2 => rw [ha] at ha2; cases ha2
      next ha2 => simp
  | case14 schema refs h1 val hs hn hi hb hnu harr hobj h2 =>
    rw [jsonSchemaToType.eq_def]
    simp only [h1, h2]
    exact ⟨_, _, rfl⟩
  | case15 refs => simp [jsonSchemaList]
  | case16 refs s rest ih1 ih2 =>
    obtain ⟨t, refs2, ht⟩ := ih1
    obtain ⟨ts, refs3, hts⟩ := ih2 refs2
    simp [jsonSchemaList, ht, hts, Bind.bind, Except.bind]
  | case17 required refs => simp [jsonSchemaProps]
  | case18 required refs name propSchema rest ih1 ih2 =>
    obtain ⟨t, refs2, ht⟩ := ih1
    obtain ⟨flds, refs3, hf⟩ := ih2 refs2
    simp [jsonSchemaProps, ht, hf, Bind.bind, Except.bind]

/-- Helper: every type produced by the CRD schema conversion is free of
coercion hints, at every depth of its tree. -/
theorem jsonSchemaToType_noHints (base : String) (schema : Json) (refs : List String) :
    ∀ t refs2, jsonSchemaToType base schema refs = .ok (t, refs2) →
      noHints t = true := by
  induction schema, refs using jsonSchemaToType.induct with
  | motive2 schemas refs => exact ∀ ts refs2, jsonSchemaList base schemas refs = Except.ok (ts, refs2) → noHintsList ts = true
  | motive3 required props refs => exact ∀ flds refs2, jsonSchemaProps base required props refs = Except.ok (flds, refs2) → noHintsFields flds = true
  | baseModule => exact base
  | case1 schema refs tn h =>
    intro t refs2 ht
    simp [jsonSchemaToType, h] at ht
    rw [← ht.1]
    simp [noHints]
  | case2 schema refs h1 h2 =>
    intro t refs2 ht
    simp [jsonSchemaToType, h1, h2] at ht
    rw [← ht.1]
    simp [noHints]
  | case3 schema refs h1 h2 =>
    intro t refs2 ht
    simp [jsonSchemaToType, h1, h2] at ht
    rw [← ht.1]
    simp [noHints]
  | case4 schema refs h1 h2 =>
    intro t refs2 ht
    simp [jsonSchemaToType, h1, h2] at ht
    rw [← ht.1]
    simp [noHints]
  | case5 schema refs h1 h2 =>
    intro t refs2 ht
    simp [jsonSchemaToType, h1, h2] at ht
    rw [← ht.1]
    simp [noHints]
  | case6 schema refs h1 h2 =>
    intro t refs2 ht
    simp [jsonSchemaToType, h1, h2] at ht
    rw [← ht.1]
    simp [noHints]
  | case7 schema refs h1 h2 itemsSchema hi ih =>
    intro t refs2 ht
    rw [jsonSchemaToType.eq_def] at ht
    simp only [h1, h2] at ht
    obtain ⟨ti, refsi, hti⟩ := jsonSchemaToType_never_errors base itemsSchema refs
    split at ht
    next itemsSchema2 hi2 =>
      rw [hi] at hi2
      injection hi2 with hi2
      subst hi2
      rw [hti] at ht
      simp only [Bind.bind, Except.bind, Except.ok.injEq, Prod.mk.injEq] at ht
      rw [← ht.1]
      simpa [noHints] using ih ti refsi hti
    next hi2 => rw [hi] at hi2; cases hi2
  | case8 schema refs h1 h2 hi =>
    intro t refs2 ht
    rw [jsonSchemaToType.eq_def] at ht
    simp only [h1, h2] at ht
    split at ht
    next itemsSchema2 hi2 => rw [hi] at hi2; cases hi2
    next hi2 =>
      simp only [Except.ok.injEq, Prod.mk.injEq] at ht
      rw [← ht.1]
      simp [noHints]
  | case9 schema refs h1 h2 required props hp ih =>
    intro t refs2 ht
    rw [jsonSchemaToType.eq_def] at ht
    simp only [h1, h2] at ht
    split at ht
    next props2 hp2 =>
      rw [hp] at hp2
      injection hp2 with hp2
      subst hp2
      cases hps : jsonSchemaProps base
          (match (schema.getKey "required").bind Json.asArray with
            | some arr => List.filterMap Json.asStr arr
            | none => []) props refs with
      | error e => rw [hps] at ht; simp [Bind.bind, Except.bind] at ht
      | ok v =>
        obtain ⟨flds, refsi⟩ := v
        rw [hps] at ht
        simp only [Bind.bind, Except.bind, Except.ok.injEq, Prod.mk.injEq] at ht
        rw [← ht.1]
        simpa [noHints] using ih flds refsi hps
    next hp2 => rw [hp] at hp2; cases hp2
  | case10 schema refs h1 h2 hp =>
    intro t refs2 ht
    rw [jsonSchemaToType.eq_def] at ht
    simp only [h1, h2] at ht
    split at ht
    next props2 hp2 => rw [hp] at hp2; cases hp2
    next hp2 =>
      simp only [Except.ok.injEq, Prod.mk.injEq] at ht
      rw [← ht.1]
      simp [noHints, noHintsFields]
  | case11 schema refs h1 h2 oneOfList ho ih =>
    intro t refs2 ht
    rw [jsonSchemaToType.eq_def] at ht
    simp only [h1, h2] at ht
    split at ht
    next l2 ho2 =>
      rw [ho] at ho2
      injection ho2 with ho2
      subst ho2
      cases hls : jsonSchemaList base oneOfList refs with
      | error e => rw [hls] at ht; simp [Bind.bind, Except.bind] at ht
      | ok v =>
        obtain ⟨ts, refsi⟩ := v
        rw [hls] at ht
        simp only [Bind.bind, Except.bind, Except.ok.injEq, Prod.mk.injEq] at ht
        rw [← ht.1]
        simpa [noHints] using ih ts refsi hls
    next ho2 => rw [ho] at ho2; cases ho2
  | case12 schema refs h1 h2 ho anyOfList ha ih =>
    intro t refs2 ht
    rw [jsonSchemaToType.eq_def] at ht
    simp only [h1, h2] at ht
    split at ht
    next l2 ho2 => rw [ho] at ho2; cases ho2
    next ho2 =>
      split at ht
      next l2 ha2 =>
        rw [ha] at ha2
        injection ha2 with ha2
        subst ha2
        cases hls : jsonSchemaList base anyOfList refs with
        | error e => rw [hls] at ht; simp [Bind.bind, Except.bind] at ht
        | ok v =>
          obtain ⟨ts, refsi⟩ := v
          rw [hls] at ht
          simp only [Bind.bind, Except.bind, Except.ok.injEq, Prod.mk.injEq] at ht
          rw [← ht.1]
          simpa [noHints] using ih ts refsi hls
      next ha2 => rw [ha] at ha2; cases ha2
  | case13 schema refs h1 h2 ho ha =>
    intro t refs2 ht
    rw [jsonSchemaToType.eq_def] at ht
    simp only [h1, h2] at ht
    split at ht
    next l2 ho2 => rw [ho] at ho2; cases ho2
    next ho2 =>
      split at ht
      next l2 ha2 => rw [ha] at ha2; cases ha2
      next ha2 =>
        simp only [Except.ok.injEq, Prod.mk.injEq] at ht
        rw [← ht.1]
        simp [noHints]
  | case14 schema refs h1 val hs hn hi hb hnu harr hobj h2 =>
    intro t refs2 ht
    rw [jsonSchemaToType.eq_def] at ht
    simp only [h1, h2] at ht
    simp only [Except.ok.injEq, Prod.mk.injEq] at ht
    rw [← ht.1]
    simp [noHints]
  | case15 refs =>
    intro ts refs2 ht
    simp [jsonSchemaList] at ht
    rw [show ts = [] from ht.1]
    simp [noHintsList]
  | case16 refs s rest ih1 ih2 =>
    intro ts refs2 ht
    simp only [jsonSchemaList] at ht
    cases h1 : jsonSchemaToType base s refs with
    | error e => rw [h1] at ht; simp [Bind.bind, Except.bind] at ht
    | ok v =>
      obtain ⟨t, refsa⟩ := v
      rw [h1] at ht
      simp only [Bind.bind, Except.bind] at ht
      cases h2 : jsonSchemaList base rest refsa with
      | error e => rw [h2] at ht; simp at ht
      | ok w =>
        obtain ⟨tsr, refsb⟩ := w
        rw [h2] at ht
        simp only [Except.ok.injEq, Prod.mk.injEq] at ht
        rw [show ts = t :: tsr from ht.1.symm]
        simp only [noHintsList, Bool.and_eq_true]
        exact ⟨ih1 t refsa h1, ih2 refsa tsr refsb h2⟩
  | case17 required refs =>
    intro flds refs2 ht
    simp [jsonSchemaProps] at ht
    rw [show flds = [] from ht.1]
    simp [noHintsFields]
  | case18 required refs name propSchema rest ih1 ih2 =>
    intro flds refs2 ht
    simp only [jsonSchemaProps] at ht
    cases h1 : jsonSchemaToType base propSchema refs with
    | error e => rw [h1] at ht; simp [Bind.bind, Except.bind] at ht
    | ok v =>
      obtain ⟨t, refsa⟩ := v
      rw [h1] at ht
      simp only [Bind.bind, Except.bind] at ht
      cases h2 : jsonSchemaProps base required rest refsa with
      | error e => rw [h2] at ht; simp at ht
      | ok w =>
        obtain ⟨fldsr, refsb⟩ := w
        rw [h2] at ht
        simp only [Except.ok.injEq, Prod.mk.injEq] at ht
        rw [show flds = (name, TyField.mk t (required.contains name)
          ((propSchema.getKey "description").bind Json.asStr) none) :: fldsr
          from ht.1.symm]
        simp only [noHintsFields, Bool.and_eq_true]
        exact ⟨ih1 t refsa h1, ih2 refsa fldsr refsb h2⟩

/-- Helper: every type produced by the OpenAPI walker conversion is free
of coercion hints, at every depth of its tree. -/
theorem schemaToTypeW_noHints (base : String) (schema : Schema) (refs : List String) :
    ∀ t refs2, schemaToTypeW base schema refs = .ok (t, refs2) →
      noHints t = true := by
  induction schema, refs using schemaToTypeW.induct with
  | motive_2 members refs => exact ∀ ts refs2, schemaOneOfW base members refs = Except.ok (ts, refs2) → noHintsList ts = true
  | motive_3 required props refs => exact ∀ flds refs2, schemaPropsW base required props refs = Except.ok (flds, refs2) → noHintsFields flds = true
  | baseModule => exact base
  | case1 refs d =>
    intro t refs2 ht
    simp [schemaToTypeW] at ht
    rw [show t = Ty.string from ht.1.symm]
    simp [noHints]
  | case2 refs d =>
    intro t refs2 ht
    simp [schemaToTypeW] at ht
    rw [show t = Ty.number from ht.1.symm]
    simp [noHints]
  | case3 refs d =>
    intro t refs2 ht
    simp [schemaToTypeW] at ht
    rw [show t = Ty.integer from ht.1.symm]
    simp [noHints]
  | case4 refs d =>
    intro t refs2 ht
    simp [schemaToTypeW] at ht
    rw [show t = Ty.bool from ht.1.symm]
    simp [noHints]
  | case5 refs d itemSchema ih =>
    intro t refs2 ht
    simp only [schemaToTypeW] at ht
    cases h1 : schemaToTypeW base itemSchema refs with
    | error e => rw [h1] at ht; simp [Bind.bind, Except.bind] at ht
    | ok v =>
      obtain ⟨ti, refsa⟩ := v
      rw [h1] at ht
      simp only [Bind.bind, Except.bind, Except.ok.injEq, Prod.mk.injEq] at ht
      rw [show t = Ty.array ti from ht.1.symm]
      simpa [noHints] using ih ti refsa h1
  | case6 refs d ref =>
    intro t refs2 ht
    simp [schemaToTypeW] at ht
    rw [show t = Ty.array Ty.any from ht.1.symm]
    simp [noHints]
  | case7 refs d =>
    intro t refs2 ht
    simp [schemaToTypeW] at ht
    rw [show t = Ty.array Ty.any from ht.1.symm]
    simp [noHints]
  | case8 refs d properties required addProps ih =>
    intro t refs2 ht
    simp only [schemaToTypeW] at ht
    cases h1 : schemaPropsW base required properties refs with
    | error e => rw [h1] at ht; simp [Bind.bind, Except.bind] at ht
    | ok v =>
      obtain ⟨flds, refsa⟩ := v
      rw [h1] at ht
      simp only [Bind.bind, Except.bind, Except.ok.injEq, Prod.mk.injEq] at ht
      rw [show t = Ty.record flds addProps.isSome from ht.1.symm]
      simpa [noHints] using ih flds refsa h1
  | case9 refs d members ih =>
    intro t refs2 ht
    simp only [schemaToTypeW] at ht
    cases h1 : schemaOneOfW base members refs with
    | error e => rw [h1] at ht; simp [Bind.bind, Except.bind] at ht
    | ok v =>
      obtain ⟨ts, refsa⟩ := v
      rw [h1] at ht
      simp only [Bind.bind, Except.bind, Except.ok.injEq, Prod.mk.injEq] at ht
      rw [show t = Ty.union ts none from ht.1.symm]
      simpa [noHints] using ih ts refsa h1
  | case10 refs d members =>
    intro t refs2 ht
    simp [schemaToTypeW] at ht
    rw [show t = Ty.any from ht.1.symm]
    simp [noHints]
  | case11 refs d members =>
    intro t refs2 ht
    simp [schemaToTypeW] at ht
    rw [show t = Ty.any from ht.1.symm]
    simp [noHints]
  | case12 refs d members =>
    intro t refs2 ht
    simp [schemaToTypeW] at ht
    rw [show t = Ty.any from ht.1.symm]
    simp [noHints]
  | case13 refs d =>
    intro t refs2 ht
    simp [schemaToTypeW] at ht
    rw [show t = Ty.any from ht.1.symm]
    simp [noHints]
  | case14 refs =>
    intro ts refs2 ht
    simp [schemaOneOfW] at ht
    rw [show ts = [] from ht.1]
    simp [noHintsList]
  | case15 refs s rest ih1 ih2 =>
    intro ts refs2 ht
    simp only [schemaOneOfW] at ht
    cases h1 : schemaToTypeW base s refs with
    | error e => rw [h1] at ht; simp [Bind.bind, Except.bind] at ht
    | ok v =>
      obtain ⟨t, refsa⟩ := v
      rw [h1] at ht
      simp only [Bind.bind, Except.bind] at ht
      cases h2 : schemaOneOfW base rest refsa with
      | error e => rw [h2] at ht; simp at ht
      | ok w =>
        obtain ⟨tsr, refsb⟩ := w
        rw [h2] at ht
        simp only [Except.ok.injEq, Prod.mk.injEq] at ht
        rw [show ts = t :: tsr from ht.1.symm]
        simp only [noHintsList, Bool.and_eq_true]
        exact ⟨ih1 t refsa h1, ih2 refsa tsr refsb h2⟩
  | case16 refs ref rest ih =>
    intro ts refs2 ht
    simp only [schemaOneOfW] at ht
    exact ih ts refs2 ht
  | case17 required refs =>
    intro flds refs2 ht
    simp [schemaPropsW] at ht
    rw [show flds = [] from ht.1]
    simp [noHintsFields]
  | case18 required refs name fieldSchema rest ih1 ih2 =>
    intro flds refs2 ht
    simp only [schemaPropsW] at ht
    cases h1 : schemaToTypeW base fieldSchema refs with
    | error e => rw [h1] at ht; simp [Bind.bind, Except.bind] at ht
    | ok v =>
      obtain ⟨t, refsa⟩ := v
      rw [h1] at ht
      simp only [Bind.bind, Except.bind] at ht
      cases h2 : schemaPropsW base required rest refsa with
      | error e => rw [h2] at ht; simp at ht
      | ok w =>
        obtain ⟨fldsr, refsb⟩ := w
        rw [h2] at ht
        simp only [Except.ok.injEq, Prod.mk.injEq] at ht
        rw [show flds = (name, TyField.mk t (required.contains name)
          fieldSchema.schemaData.description none) :: fldsr from ht.1.symm]
        simp only [noHintsFields, Bool.and_eq_true]
        exact ⟨ih1 t refsa h1, ih2 refsa fldsr refsb h2⟩
  | case19 required refs name ref rest refs1 ih =>
    intro flds refs2 ht
    simp only [schemaPropsW] at ht
    cases h2 : schemaPropsW base required rest (refs ++ [ref]) with
    | error e => rw [h2] at ht; simp [Bind.bind, Except.bind] at ht
    | ok w =>
      obtain ⟨fldsr, refsb⟩ := w
      rw [h2] at ht
      simp only [Bind.bind, Except.bind, Except.ok.injEq, Prod.mk.injEq] at ht
      rw [show flds = (name, TyField.mk
        (Ty.reference (match (splitChar ref '/').getLast? with
          | some tn => tn
          | none => ref) (some base)) (required.contains name) none none)
        :: fldsr from ht.1.symm]
      simp only [noHintsFields, Bool.and_eq_true, noHints]
      exact ⟨trivial, ih fldsr refsb h2⟩

/-- C7: `TypeResolver::resolve` is total (it returns a `String` for every
input by construction of the embedding) and never fails hard: a cached
reference returns its cached resolution, and when neither the cache, the
static short-name registry, the import-matching heuristic nor a same-module
local type applies, the input reference string is returned unchanged with
the resolver untouched. -/
theorem resolver_total_with_unchanged_fallback (r : TypeResolver)
    (reference : String) (module : Module) (ctx : ResolutionContext) :
    (∀ res, r.cache.lookup reference = some res →
      r.resolve reference module ctx = (res.resolvedName, r)) ∧
    (r.cache.lookup reference = none →
      r.typeRegistry.lookup reference = none →
      firstResolve reference module.imports = none →
      (∀ td ∈ module.types, td.name ≠ reference) →
      r.resolve reference module ctx = (reference, r)) := by
  constructor
  · intro res hres
    simp [TypeResolver.resolve, hres]
  · intro hc hreg hfirst hlocal
    have hany : (module.types.any fun td => td.name = reference) = false := by
      simp only [List.any_eq_false, decide_eq_true_eq]
      intro td htd
      exact hlocal td htd
    simp [TypeResolver.resolve, hc, hreg, hfirst, hany]

/-- C9: the resolver's per-run cache is keyed only by the raw reference
string: whenever a call leaves the reference in the cache, the cached
resolved name is exactly the name that call returned, and every later call
for the same reference returns that same name for every module and every
context, leaving the resolver unchanged. -/
theorem resolver_cache_keyed_by_reference (r : TypeResolver)
    (reference : String) (m1 : Module) (c1 : ResolutionContext) :
    ∀ res, (r.resolve reference m1 c1).2.cache.lookup reference = some res →
      res.resolvedName = (r.resolve reference m1 c1).1 ∧
      ∀ (m2 : Module) (c2 : ResolutionContext),
        (r.resolve reference m1 c1).2.resolve reference m2 c2 =
          ((r.resolve reference m1 c1).1, (r.resolve reference m1 c1).2) := by
  intro res hres
  cases hc : r.cache.lookup reference with
  | some cached =>
    have hr1 : r.resolve reference m1 c1 = (cached.resolvedName, r) := by
      simp [TypeResolver.resolve, hc]
    rw [hr1] at hres ⊢
    simp only at hres
    rw [hc] at hres
    obtain rfl : cached = res := by injection hres
    refine ⟨rfl, fun m2 c2 => ?_⟩
    simp [TypeResolver.resolve, hc]
  | none =>
    cases hfr : firstResolve (match r.typeRegistry.lookup reference with
        | some full => full
        | none => reference) m1.imports with
    | some p =>
      obtain ⟨res1, imp1⟩ := p
      have hr1 : r.resolve reference m1 c1 = (res1,
          { r with cache := (reference,
              { resolvedName := res1, requiredImport := some imp1 }) :: r.cache }) := by
        simp [TypeResolver.resolve, hc, hfr]
      rw [hr1] at hres ⊢
      simp only [List.lookup, beq_self_eq_true] at hres
      obtain rfl : ({ resolvedName := res1, requiredImport := some imp1 } : Resolution) = res := by
        injection hres
      refine ⟨rfl, fun m2 c2 => ?_⟩
      simp [TypeResolver.resolve, List.lookup]
    | none =>
      cases hany : (m1.types.any fun td => td.name = reference) with
      | true =>
        have hr1 : r.resolve reference m1 c1 = (reference,
            { r with cache := (reference,
                { resolvedName := reference, requiredImport := none }) :: r.cache }) := by
          simp [TypeResolver.resolve, hc, hfr, hany]
        rw [hr1] at hres ⊢
        simp only [List.lookup, beq_self_eq_true] at hres
        obtain rfl : ({ resolvedName := reference, requiredImport := none } : Resolution) = res := by
          injection hres
        refine ⟨rfl, fun m2 c2 => ?_⟩
        simp [TypeResolver.resolve, List.lookup]
      | false =>
        have hr1 : r.resolve reference m1 c1 = (reference, r) := by
          simp [TypeResolver.resolve, hc, hfr, hany]
        rw [hr1] at hres
        simp only at hres
        rw [hc] at hres
        cases hres

/-- Helper: the CRD property loop never returns an error. -/
theorem jsonSchemaProps_never_errors (base : String) (required : List String) :
    ∀ (props : List (String × Json)) (refs : List String),
      ∃ flds refs2, jsonSchemaProps base required props refs = .ok (flds, refs2) := by
  intro props
  induction props with
  | nil => intro refs; exact ⟨[], refs, by simp [jsonSchemaProps]⟩
  | cons p rest ih =>
    intro refs
    obtain ⟨pname, pschema⟩ := p
    obtain ⟨t, refsa, ht⟩ := jsonSchemaToType_never_errors base pschema refs
    obtain ⟨flds, refsb, hf⟩ := ih refsa
    refine ⟨(pname, .mk t (required.contains pname)
      ((pschema.getKey "description").bind Json.asStr) none) :: flds, refsb, ?_⟩
    simp [jsonSchemaProps, ht, hf, Bind.bind, Except.bind]

/-- Helper: the CRD member-schema loop never returns an error. -/
theorem jsonSchemaList_never_errors (base : String) :
    ∀ (schemas : List Json) (refs : List String),
      ∃ ts refs2, jsonSchemaList base schemas refs = .ok (ts, refs2) := by
  intro schemas
  induction schemas with
  | nil => intro refs; exact ⟨[], refs, by simp [jsonSchemaList]⟩
  | cons sc rest ih =>
    intro refs
    obtain ⟨t, refsa, ht⟩ := jsonSchemaToType_never_errors base sc refs
    obtain ⟨ts, refsb, hts⟩ := ih refsa
    refine ⟨t :: ts, refsb, ?_⟩
    simp [jsonSchemaList, ht, hts, Bind.bind, Except.bind]

/-- Helper: the CRD walker's openness flag is true exactly when the
`additionalProperties` member is the JSON boolean `true`. -/
theorem additionalPropertiesBool_iff (schema : Json) :
    ((match (schema.getKey "additionalProperties").bind Json.asBool with
      | some b => b
      | none => false) = true) ↔
    schema.getKey "additionalProperties" = some (Json.bool true) := by
  cases hj : schema.getKey "additionalProperties" with
  | none => simp [hj]
  | some j => cases j <;> simp [hj, Json.asBool]

/-- Helper: the OpenAPI walker conversion never returns an error. -/
theorem schemaToTypeW_never_errors (base : String) (schema : Schema)
    (refs : List String) :
    ∃ t refs2, schemaToTypeW base schema refs = .ok (t, refs2) := by
  induction schema, refs using schemaToTypeW.induct with
  | motive_2 members refs => exact ∃ ts refs2, schemaOneOfW base members refs = Except.ok (ts, refs2)
  | motive_3 required props refs => exact ∃ flds refs2, schemaPropsW base required props refs = Except.ok (flds, refs2)
  | baseModule => exact base
  | case1 refs d => exact ⟨.string, refs, by simp [schemaToTypeW]⟩
  | case2 refs d => exact ⟨.number, refs, by simp [schemaToTypeW]⟩
  | case3 refs d => exact ⟨.integer, refs, by simp [schemaToTypeW]⟩
  | case4 refs d => exact ⟨.bool, refs, by simp [schemaToTypeW]⟩
  | case5 refs d itemSchema ih =>
    obtain ⟨t, refsa, ht⟩ := ih
    exact ⟨.array t, refsa, by simp [schemaToTypeW, ht, Bind.bind, Except.bind]⟩
  | case6 refs d ref => exact ⟨.array .any, refs, by simp [schemaToTypeW]⟩
  | case7 refs d => exact ⟨.array .any, refs, by simp [schemaToTypeW]⟩
  | case8 refs d properties required addProps ih =>
    obtain ⟨flds, refsa, hf⟩ := ih
    exact ⟨.record flds addProps.isSome, refsa,
      by simp [schemaToTypeW, hf, Bind.bind, Except.bind]⟩
  | case9 refs d members ih =>
    obtain ⟨ts, refsa, ht⟩ := ih
    exact ⟨.union ts none, refsa,
      by simp [schemaToTypeW, ht, Bind.bind, Except.bind]⟩
  | case10 refs d members => exact ⟨.any, refs, by simp [schemaToTypeW]⟩
  | case11 refs d members => exact ⟨.any, refs, by simp [schemaToTypeW]⟩
  | case12 refs d members => exact ⟨.any, refs, by simp [schemaToTypeW]⟩
  | case13 refs d => exact ⟨.any, refs, by simp [schemaToTypeW]⟩
  | case14 refs => exact ⟨[], refs, by simp [schemaOneOfW]⟩
  | case15 refs sc rest ih1 ih2 =>
    obtain ⟨t, refsa, ht⟩ := ih1
    obtain ⟨ts, refsb, hts⟩ := ih2 refsa
    exact ⟨t :: ts, refsb, by simp [schemaOneOfW, ht, hts, Bind.bind, Except.bind]⟩
  | case16 refs ref rest ih =>
    obtain ⟨ts, refsb, hts⟩ := ih
    exact ⟨ts, refsb, by simp [schemaOneOfW, hts]⟩
  | case17 required refs => exact ⟨[], refs, by simp [schemaPropsW]⟩
  | case18 required refs name fieldSchema rest ih1 ih2 =>
    obtain ⟨t, refsa, ht⟩ := ih1
    obtain ⟨flds, refsb, hf⟩ := ih2 refsa
    exact ⟨(name, .mk t (required.contains name)
      fieldSchema.schemaData.description none) :: flds, refsb,
      by simp [schemaPropsW, ht, hf, Bind.bind, Except.bind]⟩
  | case19 required refs name ref rest refs1 ih =>
    obtain ⟨flds, refsb, hf⟩ := ih
    exact ⟨(name, .mk (.reference (match (splitChar ref '/').getLast? with
      | some tn => tn
      | none => ref) (some base)) (required.contains name) none none) :: flds,
      refsb, by simp [schemaPropsW, hf, Bind.bind, Except.bind]⟩

/-- Helper: the OpenAPI walker property loop never returns an error. -/
theorem schemaPropsW_never_errors (base : String) (required : List String) :
    ∀ (props : List (String × RefOrSchema)) (refs : List String),
      ∃ flds refs2, schemaPropsW base required props refs = .ok (flds, refs2) := by
  intro props
  induction props with
  | nil => intro refs; exact ⟨[], refs, by simp [schemaPropsW]⟩
  | cons p rest ih =>
    intro refs
    obtain ⟨pname, pref⟩ := p
    cases pref with
    | item fieldSchema =>
      obtain ⟨t, refsa, ht⟩ := schemaToTypeW_never_errors base fieldSchema refs
      obtain ⟨flds, refsb, hf⟩ := ih refsa
      exact ⟨(pname, .mk t (required.contains pname)
        fieldSchema.schemaData.description none) :: flds, refsb,
        by simp [schemaPropsW, ht, hf, Bind.bind, Except.bind]⟩
    | reference ref =>
      obtain ⟨flds, refsb, hf⟩ := ih (refs ++ [ref])
      exact ⟨(pname, .mk (.reference (match (splitChar ref '/').getLast? with
        | some tn => tn
        | none => ref) (some base)) (required.contains pname) none none) :: flds,
        refsb, by simp [schemaPropsW, hf, Bind.bind, Except.bind]⟩

/-- Helper: the OpenAPI walker `oneOf` loop never returns an error. -/
theorem schemaOneOfW_never_errors (base : String) :
    ∀ (members : List RefOrSchema) (refs : List String),
      ∃ ts refs2, schemaOneOfW base members refs = .ok (ts, refs2) := by
  intro members
  induction members with
  | nil => intro refs; exact ⟨[], refs, by simp [schemaOneOfW]⟩
  | cons m rest ih =>
    intro refs
    cases m with
    | item sc =>
      obtain ⟨t, refsa, ht⟩ := schemaToTypeW_never_errors base sc refs
      obtain ⟨ts, refsb, hts⟩ := ih refsa
      exact ⟨t :: ts, refsb, by simp [schemaOneOfW, ht, hts, Bind.bind, Except.bind]⟩
    | reference ref =>
      obtain ⟨ts, refsb, hts⟩ := ih refs
      exact ⟨ts, refsb, by simp [schemaOneOfW, hts]⟩

/-- Helper: on field lists with duplicate-free names, the stable by-name
sort maps permutation-equal lists to the same sorted list. -/
theorem sortFieldsByKey_eq_of_perm {l1 l2 : List (String × TyField)}
    (hperm : l1.Perm l2) (hnd : (l1.map Prod.fst).Nodup) :
    sortFieldsByKey l1 = sortFieldsByKey l2 := by
  haveI : IsTotal (String × TyField) (fun a b => a.1 ≤ b.1) :=
    ⟨fun a b => le_total a.1 b.1⟩
  haveI : IsTrans (String × TyField) (fun a b => a.1 ≤ b.1) :=
    ⟨fun a b c hab hbc => le_trans hab hbc⟩
  haveI : IsAntisymm (String × TyField) (fun a b => a.1 < b.1) :=
    ⟨fun a b hab hba => absurd hba (lt_asymm hab)⟩
  have hperm1 : (sortFieldsByKey l1).Perm l1 :=
    List.perm_insertionSort _ l1
  have hperm2 : (sortFieldsByKey l2).Perm l2 :=
    List.perm_insertionSort _ l2
  have hchain : (sortFieldsByKey l1).Perm (sortFieldsByKey l2) :=
    (hperm1.trans hperm).trans hperm2.symm
  have hs1 : List.Sorted (fun a b : String × TyField => a.1 ≤ b.1)
      (sortFieldsByKey l1) := List.sorted_insertionSort _ l1
  have hs2 : List.Sorted (fun a b : String × TyField => a.1 ≤ b.1)
      (sortFieldsByKey l2) := List.sorted_insertionSort _ l2
  have hnd1 : ((sortFieldsByKey l1).map Prod.fst).Nodup :=
    ((hperm1.map Prod.fst).nodup_iff).mpr hnd
  have hnd2 : ((sortFieldsByKey l2).map Prod.fst).Nodup := by
    refine ((hperm2.map Prod.fst).nodup_iff).mpr ?_
    exact ((hperm.map Prod.fst).nodup_iff).mp hnd
  have strict1 : List.Sorted (fun a b : String × TyField => a.1 < b.1)
      (sortFieldsByKey l1) := by
    have hne := (List.pairwise_map.mp hnd1)
    exact (hs1.and hne).imp fun h => lt_of_le_of_ne h.1 h.2
  have strict2 : List.Sorted (fun a b : String × TyField => a.1 < b.1)
      (sortFieldsByKey l2) := by
    have hne := (List.pairwise_map.mp hnd2)
    exact (hs2.and hne).imp fun h => lt_of_le_of_ne h.1 h.2
  exact List.eq_of_perm_of_sorted hchain strict1 strict2

/-- Witness for C7: on a fresh resolver, an unknown reference against an
empty module resolves to itself with the resolver unchanged. -/
theorem resolver_total_with_unchanged_fallback_witness :
    TypeResolver.new.resolve "UnknownType" emptyTestModule
      ResolutionContext.default = ("UnknownType", TypeResolver.new) :=
  (resolver_total_with_unchanged_fallback TypeResolver.new "UnknownType"
    emptyTestModule ResolutionContext.default).2 rfl rfl rfl (by simp [emptyTestModule])

/-- Witness for C9: after resolving `ObjectMeta` against a module whose
matching Import caches `k8s_v1.ObjectMeta`, resolving the same string
against an empty module — which on its own would leave it unresolved —
still returns the cached name. -/
theorem resolver_cache_keyed_by_reference_witness :
    (TypeResolver.new.resolve "ObjectMeta" k8sTestModule
        ResolutionContext.default).2.resolve "ObjectMeta" emptyTestModule
      ResolutionContext.default =
    ((TypeResolver.new.resolve "ObjectMeta" k8sTestModule
        ResolutionContext.default).1,
     (TypeResolver.new.resolve "ObjectMeta" k8sTestModule
        ResolutionContext.default).2) ∧
    (TypeResolver.new.resolve "ObjectMeta" k8sTestModule
        ResolutionContext.default).1 = "k8s_v1.ObjectMeta" ∧
    (TypeResolver.new.resolve "ObjectMeta" emptyTestModule
        ResolutionContext.default).1 = "ObjectMeta" :=
  ⟨(resolver_cache_keyed_by_reference TypeResolver.new "ObjectMeta" k8sTestModule
      ResolutionContext.default
      { resolvedName := "k8s_v1.ObjectMeta", requiredImport := some k8sTestImport }
      rfl).2 emptyTestModule ResolutionContext.default,
   rfl, rfl⟩

/-- Counterexample for C5: a schema whose `additionalProperties` member is
present and truthy (the object `{}`) still produces `open = false` in the
CRD walker, because the code only honours a boolean `true`. -/
theorem crd_additionalProperties_object_not_open :
    (Json.obj [("type", Json.str "object"),
      ("additionalProperties", Json.obj [])]).getKey "additionalProperties"
      = some (Json.obj []) ∧
    jsonSchemaToType "m" (Json.obj [("type", Json.str "object"),
      ("additionalProperties", Json.obj [])]) []
      = .ok (.record [] false, []) := by
  refine ⟨rfl, ?_⟩
  simp [jsonSchemaToType, Json.getKey, Json.asStr, Json.asObject, Json.asArray,
    Json.asBool, List.lookup]

/-- C5 (amended): in the CRD walker an object schema's fields are marked
required exactly when their name is in the schema's `required` name list,
and the record is open exactly when `additionalProperties` is the boolean
`true`; in the OpenAPI walker fields are required exactly when listed in
`required`, and the record is open exactly when `additional_properties` is
present (regardless of its value). -/
theorem object_extraction_required_and_open :
    (∀ (baseModule : String) (schema : Json) (refs : List String)
        (props : List (String × Json)),
      (schema.getKey "$ref").bind Json.asStr = none →
      (schema.getKey "type").bind Json.asStr = some "object" →
      (schema.getKey "properties").bind Json.asObject = some props →
      ∃ flds refs2 op,
        jsonSchemaToType baseModule schema refs = .ok (.record flds op, refs2) ∧
        (op = true ↔ schema.getKey "additionalProperties" = some (Json.bool true)) ∧
        (∀ name fld, (name, fld) ∈ flds →
          (fld.required = true ↔ name ∈ requiredNames schema))) ∧
    (∀ (baseModule : String) (data : SchemaData)
        (props : List (String × RefOrSchema)) (required : List String)
        (addProps : Option AdditionalProperties) (refs : List String),
      ∃ flds refs2,
        schemaToTypeW baseModule
          (.mk data (.type (.object (.mk props required addProps)))) refs
          = .ok (.record flds addProps.isSome, refs2) ∧
        (∀ name fld, (name, fld) ∈ flds →
          (fld.required = true ↔ name ∈ required))) := by
  constructor
  · intro baseModule schema refs props h1 h2 hp
    obtain ⟨flds, refs2, hf⟩ :=
      jsonSchemaProps_never_errors baseModule (requiredNames schema) props refs
    refine ⟨flds, refs2,
      (match (schema.getKey "additionalProperties").bind Json.asBool with
        | some b => b
        | none => false), ?_, additionalPropertiesBool_iff schema, ?_⟩
    · rw [jsonSchemaToType.eq_def]
      simp only [h1, h2]
      split
      next props2 hp2 =>
        rw [hp] at hp2
        injection hp2 with hp2
        subst hp2
        rw [show (match (schema.getKey "required").bind Json.asArray with
          | some arr => List.filterMap Json.asStr arr
          | none => []) = requiredNames schema from rfl, hf]
        simp [Bind.bind, Except.bind]
      next hp2 => rw [hp] at hp2; cases hp2
    · intro name fld hmem
      have := jsonSchemaProps_required_fields baseModule (requiredNames schema)
        props refs [] flds refs2 hf name fld hmem
      rw [this]
      simp [List.contains, List.elem_iff]
  · intro baseModule data props required addProps refs
    obtain ⟨flds, refs2, hf⟩ := schemaPropsW_never_errors baseModule required props refs
    refine ⟨flds, refs2, ?_, ?_⟩
    · simp [schemaToTypeW, hf, Bind.bind, Except.bind]
    · intro name fld hmem
      have := schemaPropsW_required_fields baseModule required props refs
        flds refs2 hf name fld hmem
      rw [this]
      simp [List.contains, List.elem_iff]

/-- Witness for C5 at a concrete CRD object schema (required `a`, optional
`b`, `additionalProperties: true`) and a concrete OpenAPI object. -/
theorem object_extraction_required_and_open_witness :
    (∃ flds refs2 op,
      jsonSchemaToType "m" (Json.obj [("type", Json.str "object"),
        ("required", Json.arr [Json.str "a"]),
        ("properties", Json.obj [("a", Json.obj [("type", Json.str "string")]),
          ("b", Json.obj [("type", Json.str "integer")])]),
        ("additionalProperties", Json.bool true)]) []
        = .ok (.record flds op, refs2) ∧
      (op = true ↔ (Json.obj [("type", Json.str "object"),
        ("required", Json.arr [Json.str "a"]),
        ("properties", Json.obj [("a", Json.obj [("type", Json.str "string")]),
          ("b", Json.obj [("type", Json.str "integer")])]),
        ("additionalProperties", Json.bool true)]).getKey "additionalProperties"
          = some (Json.bool true)) ∧
      (∀ name fld, (name, fld) ∈ flds →
        (fld.required = true ↔ name ∈ requiredNames (Json.obj
          [("type", Json.str "object"),
           ("required", Json.arr [Json.str "a"]),
           ("properties", Json.obj [("a", Json.obj [("type", Json.str "string")]),
             ("b", Json.obj [("type", Json.str "integer")])]),
           ("additionalProperties", Json.bool true)])))) ∧
    (∃ flds refs2,
      schemaToTypeW "m" (.mk ⟨none⟩ (.type (.object (.mk
          [("a", .item (.mk ⟨none⟩ (.type .string)))] ["a"]
          (some (.any false)))))) []
        = .ok (.record flds (some (AdditionalProperties.any false)).isSome, refs2) ∧
      (∀ name fld, (name, fld) ∈ flds →
        (fld.required = true ↔ name ∈ ["a"]))) :=
  ⟨object_extraction_required_and_open.1 "m" _ [] _ rfl rfl rfl,
   object_extraction_required_and_open.2 "m" ⟨none⟩ [("a", .item (.mk ⟨none⟩ (.type .string)))] ["a"]
     (some (.any false)) []⟩

/-- Counterexample for C4: in the OpenAPI walker a schema node carrying
`anyOf` is converted to `Any`, not to a `Union` covering its members. -/
theorem openapi_anyOf_degrades_to_any :
    schemaToTypeW "m" (.mk ⟨none⟩ (.anyOf [.item (.mk ⟨none⟩ (.type .string))])) []
      = .ok (.any, []) ∧
    Ty.any ≠ Ty.union [Ty.string] none :=
  ⟨rfl, fun h => Ty.noConfusion h⟩

/-- C4 (amended): in the CRD walker a node without `$ref` and `type`
carrying `oneOf` — or `anyOf` when `oneOf` is absent — becomes a `Union`
over the conversions of all its members with no coercion hint; in the
OpenAPI walker `oneOf` becomes a `Union` over its inline members with no
hint while `anyOf` degrades to `Any`; and no generic walker ever assigns a
coercion hint anywhere in a produced type tree. -/
theorem generic_walkers_union_and_hints :
    (∀ (base : String) (schema : Json) (refs : List String) (members : List Json),
      (schema.getKey "$ref").bind Json.asStr = none →
      (schema.getKey "type").bind Json.asStr = none →
      (schema.getKey "oneOf").bind Json.asArray = some members →
      ∃ ts refs2, jsonSchemaList base members refs = .ok (ts, refs2) ∧
        jsonSchemaToType base schema refs = .ok (.union ts none, refs2)) ∧
    (∀ (base : String) (schema : Json) (refs : List String) (members : List Json),
      (schema.getKey "$ref").bind Json.asStr = none →
      (schema.getKey "type").bind Json.asStr = none →
      (schema.getKey "oneOf").bind Json.asArray = none →
      (schema.getKey "anyOf").bind Json.asArray = some members →
      ∃ ts refs2, jsonSchemaList base members refs = .ok (ts, refs2) ∧
        jsonSchemaToType base schema refs = .ok (.union ts none, refs2)) ∧
    (∀ (base : String) (d : SchemaData) (members : List RefOrSchema)
        (refs : List String),
      ∃ ts refs2, schemaOneOfW base members refs = .ok (ts, refs2) ∧
        schemaToTypeW base (.mk d (.oneOf members)) refs
          = .ok (.union ts none, refs2)) ∧
    (∀ (base : String) (d : SchemaData) (members : List RefOrSchema)
        (refs : List String),
      schemaToTypeW base (.mk d (.anyOf members)) refs = .ok (.any, refs)) ∧
    (∀ (base : String) (schema : Json) (refs : List String) (t : Ty)
        (refs2 : List String),
      jsonSchemaToType base schema refs = .ok (t, refs2) → noHints t = true) ∧
    (∀ (base : String) (schema : Schema) (refs : List String) (t : Ty)
        (refs2 : List String),
      schemaToTypeW base schema refs = .ok (t, refs2) → noHints t = true) := by
  refine ⟨?_, ?_, ?_, ?_, ?_, ?_⟩
  · intro base schema refs members h1 h2 ho
    obtain ⟨ts, refs2, hts⟩ := jsonSchemaList_never_errors base members refs
    refine ⟨ts, refs2, hts, ?_⟩
    rw [jsonSchemaToType.eq_def]
    simp only [h1, h2]
    split
    next l2 ho2 =>
      rw [ho] at ho2
      injection ho2 with ho2
      subst ho2
      simp [hts, Bind.bind, Except.bind]
    next ho2 => rw [ho] at ho2; cases ho2
  · intro base schema refs members h1 h2 ho ha
    obtain ⟨ts, refs2, hts⟩ := jsonSchemaList_never_errors base members refs
    refine ⟨ts, refs2, hts, ?_⟩
    rw [jsonSchemaToType.eq_def]
    simp only [h1, h2]
    split
    next l2 ho2 => rw [ho] at ho2; cases ho2
    next ho2 =>
      split
      next l2 ha2 =>
        rw [ha] at ha2
        injection ha2 with ha2
        subst ha2
        simp [hts, Bind.bind, Except.bind]
      next ha2 => rw [ha] at ha2; cases ha2
  · intro base d members refs
    obtain ⟨ts, refs2, hts⟩ := schemaOneOfW_never_errors base members refs
    exact ⟨ts, refs2, hts, by simp [schemaToTypeW, hts, Bind.bind, Except.bind]⟩
  · intro base d members refs
    rfl
  · exact fun base schema refs t refs2 h =>
      jsonSchemaToType_noHints base schema refs t refs2 h
  · exact fun base schema refs t refs2 h =>
      schemaToTypeW_noHints base schema refs t refs2 h

/-- Witness for C4 at concrete `oneOf` and `anyOf` CRD schemas. -/
theorem generic_walkers_union_and_hints_witness :
    (∃ ts refs2,
      jsonSchemaList "m" [Json.obj [("type", Json.str "string")],
        Json.obj [("type", Json.str "integer")]] [] = .ok (ts, refs2) ∧
      jsonSchemaToType "m" (Json.obj [("oneOf", Json.arr
        [Json.obj [("type", Json.str "string")],
         Json.obj [("type", Json.str "integer")]])]) []
        = .ok (.union ts none, refs2)) ∧
    (∃ ts refs2,
      jsonSchemaList "m" [Json.obj [("type", Json.str "boolean")]] []
        = .ok (ts, refs2) ∧
      jsonSchemaToType "m" (Json.obj [("anyOf", Json.arr
        [Json.obj [("type", Json.str "boolean")]])]) []
        = .ok (.union ts none, refs2)) :=
  ⟨generic_walkers_union_and_hints.1 "m" _ [] _ rfl rfl rfl,
   generic_walkers_union_and_hints.2.1 "m" _ [] _ rfl rfl rfl rfl⟩

/-- Counterexample for C6: the legacy `OpenAPIParser::schema_to_type`
returns an `UnsupportedFeature` error on a `not` schema instead of
degrading to `Any`. -/
theorem openapi_parser_not_schema_returns_error :
    parserSchemaToType (.mk ⟨none⟩ (.notSchema []))
      = .error (.unsupportedFeature "'not' schema") := rfl

/-- C6 (amended): the OpenAPI walker degrades a `not` schema to `Any`
without an error, while the legacy `OpenAPIParser::schema_to_type` returns
the `UnsupportedFeature(\"'not' schema\")` error for the same construct. -/
theorem not_schema_walker_any_parser_error (base : String) (d : SchemaData) (members : List RefOrSchema)
    (refs : List String) :
    schemaToTypeW base (.mk d (.notSchema members)) refs = .ok (.any, refs) ∧
    parserSchemaToType (.mk d (.notSchema members))
      = .error (.unsupportedFeature "'not' schema") :=
  ⟨rfl, rfl⟩

/-- Counterexample for C3: two registries that are equal as maps — equal
`types` and permutation-equal `modules` — represent the same
`TypeRegistry` under two `HashMap` iteration orders, yet IR generation
plus Nickel emission renders different bytes, so the output is not a
function of the map contents alone. -/
theorem pipeline_output_depends_on_iteration_order :
    registryAB.modules.Perm registryBA.modules ∧
    registryAB.types = registryBA.types ∧
    pipelineRender registryAB DependencyGraph.new =
      .ok "# Module: a.v1\n\n\x7b\n  Spec = String,\n\x7d\n# Module: b.v1\n\n\x7b\n  Spec = String,\n\x7d\n" ∧
    pipelineRender registryBA DependencyGraph.new =
      .ok "# Module: b.v1\n\n\x7b\n  Spec = String,\n\x7d\n# Module: a.v1\n\n\x7b\n  Spec = String,\n\x7d\n" ∧
    ("# Module: a.v1\n\n\x7b\n  Spec = String,\n\x7d\n# Module: b.v1\n\n\x7b\n  Spec = String,\n\x7d\n" : String) ≠
      "# Module: b.v1\n\n\x7b\n  Spec = String,\n\x7d\n# Module: a.v1\n\n\x7b\n  Spec = String,\n\x7d\n" := by
  refine ⟨by decide, rfl, ?_, ?_, by decide⟩ <;>
  · simp [pipelineRender, registryAB, registryBA, specStringTypeDef, generateIr, generateIrStep,
      IR.new, IR.addModule, Metadata.empty, DependencyGraph.new,
      DependencyGraph.getCrossModuleDeps, nickelGenerate, nickelGenModules,
      nickelGenModule, nickelFirstPass, nickelEmitTypes, emitConstants,
      typeToNickel, NickelCodegen.new, TypeResolver.new, registerCommonTypes,
      indentStr, repeatStr, joinSep, linesOf, sortPairsLex, List.lookup,
      Bind.bind, Except.bind, Except.map, extractModule, splitChar,
      splitCharList, joinDot, PackageMode.convertImport]

/-- C3 (amended): record field ordering is stable — rendering a record is
invariant under permuting its field list (with duplicate-free field
names), because the code generator sorts fields by name before emission.
Module order and import order, by contrast, follow map iteration order
(see the counterexample). -/
theorem record_field_ordering_stable (cg : NickelCodegen) (module : Module)
    (indentLevel : Nat) (fields1 fields2 : List (String × TyField))
    (isOpen : Bool) (hperm : fields1.Perm fields2)
    (hnd : (fields1.map Prod.fst).Nodup) :
    typeToNickel cg (.record fields1 isOpen) module indentLevel =
      typeToNickel cg (.record fields2 isOpen) module indentLevel := by
  rw [typeToNickel.eq_def]
  conv_rhs => rw [typeToNickel.eq_def]
  simp only
  rw [sortFieldsByKey_eq_of_perm hperm hnd]
  have hlen := hperm.length_eq
  have hempty : fields1.isEmpty = fields2.isEmpty := by
    cases fields1 <;> cases fields2 <;> simp_all
  rw [hempty]

/-- Witness for the amended C3 at two concrete two-field records that are
permutations of each other. -/
theorem record_field_ordering_stable_witness :
    typeToNickel NickelCodegen.new
      (.record [("a", .mk .string false none none),
        ("b", .mk .integer false none none)] false) emptyTestModule 0 =
    typeToNickel NickelCodegen.new
      (.record [("b", .mk .integer false none none),
        ("a", .mk .string false none none)] false) emptyTestModule 0 :=
  record_field_ordering_stable NickelCodegen.new emptyTestModule 0
    [("a", .mk .string false none none), ("b", .mk .integer false none none)]
    [("b", .mk .integer false none none), ("a", .mk .string false none none)]
    false (List.Perm.swap _ _ _) (by decide)

end Amalgam
